import Mathlib

/-!
Verification of the captive power-and-steam planning core (shallow embedding).

This file embeds, in Lean 4 over exact rationals, the parts of the repository
needed to settle the frozen claims:

* `PowerDispatch` — the priority-based load allocation of
  `services/power_service.py::_dispatch_once` (steps 1–2), including the
  equal-share redistribution loop for units that share a priority tier.
* `PowerFinalize` — the tail-end acceptance logic of
  `services/power_service.py::distribute_by_priority` (acceptable deficit
  after mandatory import).
* `SteamCapacity` — `services/steam_service.py::calculate_shp_generation_capacity`.
* `HrsgDispatch` — `services/steam_service.py::dispatch_hrsg_load` (Cases A/B/C).
* `Lookup` — `database/power_asset_queries.py::get_stg_extraction_for_load`
  and `services/power_service.py::get_heat_rate_for_load`.
* `UsdController` — the per-iteration corrective-action logic of
  `services/iteration_service.py::usd_iterate` (original-STG-max capture,
  excess-steam balancing, surplus recovery, deficit reduction, the
  SHP-impossible exit, and the shape of the returned error type).

Floats are modelled as exact rationals; the display-only `round(x, 2)`
calls of the source are omitted (they affect printed output, not the
branching logic the claims are about).  Python dictionaries holding fixed
keys become structures, per-iteration observations of the external
collaborators (database, dispatch results, steam balance) become explicit
inputs threaded through the step function.
-/

namespace PowerDispatch

/-- One generation asset as fetched by `distribute_by_priority`:
`minEnergy = minMW * opHours`, `maxEnergy = capacity * opHours`, and the
dispatch priority (lower number dispatched first). -/
structure AUnit where
  minEnergy : ℚ
  maxEnergy : ℚ
  priority : ℚ
deriving DecidableEq, Repr

/-- Per-asset dispatch state of `_dispatch_once`: minimum energy `lo`,
current gross allocation `g`, and maximum energy `hi`. -/
structure GU where
  lo : ℚ
  g : ℚ
  hi : ℚ
deriving DecidableEq, Repr

/-- Step 1 of `_dispatch_once`: every asset starts at its minimum load. -/
def toGU (u : AUnit) : GU := ⟨u.minEnergy, u.minEnergy, u.maxEnergy⟩

/-- Number of assets that can still increase (`can_increase` in the source:
`gross < max_energy`). -/
def countCan (l : List GU) : Nat := (l.filter (fun u => decide (u.g < u.hi))).length

/-- Available headroom of one asset as counted into `total_group_available`
(only positive headrooms are summed by the source). -/
def posHeadroom (u : GU) : ℚ := max (u.hi - u.g) 0

/-- Sum of positive headrooms of a priority group (`total_group_available`). -/
def groupAvailable (l : List GU) : ℚ := (l.map posHeadroom).sum

/-- One pass of the equal-share loop applied to one asset: an asset below its
maximum takes `min equal_share (max - gross)`, an asset at (or above) its
maximum is left unchanged. -/
def passUnit (share : ℚ) (u : GU) : GU :=
  if u.g < u.hi then { u with g := u.g + min share (u.hi - u.g) } else u

/-- Amount actually absorbed by one asset during one equal-share pass. -/
def passTaken (share : ℚ) (u : GU) : ℚ :=
  if u.g < u.hi then min share (u.hi - u.g) else 0

/-- The `while temp_remaining > 0.1` equal-share redistribution loop of
`_dispatch_once`.  Each pass computes `equal_share = temp / len(can_increase)`
and lets every increasable asset absorb up to its remaining headroom.  The
Python loop needs at most `countCan l + 1` passes (a pass either caps some
asset, shrinking `can_increase`, or zeroes `temp` exactly), so running the
recursion on that fuel reproduces the loop. -/
def innerLoop : Nat → ℚ → List GU → ℚ × List GU
  | 0, temp, l => (temp, l)
  | fuel + 1, temp, l =>
    if temp > (0.1 : ℚ) then
      if countCan l = 0 then (temp, l)
      else
        innerLoop fuel (temp - (l.map (passTaken (temp / (countCan l : ℚ)))).sum)
          (l.map (passUnit (temp / (countCan l : ℚ))))
    else (temp, l)

/-- Single-asset branch of the group allocation: the whole group allocation
goes to the one asset that still has headroom. -/
def addToCan (amt : ℚ) : List GU → List GU
  | [] => []
  | u :: rest => if u.g < u.hi then { u with g := u.g + amt } :: rest else u :: addToCan amt rest

/-- Allocation of the remaining demand to one priority group, mirroring the
body of the `for priority in sorted(priority_groups.keys())` loop: skip when
the remainder is exhausted or the group has no headroom, give everything to a
single increasable asset, otherwise run the equal-share loop; the group
consumes `group_allocation - temp_remaining` of the remainder. -/
def dispatchGroup (r : ℚ) (grp : List GU) : List GU × ℚ :=
  if r ≤ 0 then (grp, r)
  else if countCan grp = 0 then (grp, r)
  else if countCan grp = 1 then
    (addToCan (min r (groupAvailable grp)) grp, r - min r (groupAvailable grp))
  else
    ((innerLoop (countCan grp + 1) (min r (groupAvailable grp)) grp).2,
     r - (min r (groupAvailable grp) -
       (innerLoop (countCan grp + 1) (min r (groupAvailable grp)) grp).1))

/-- Priority groups processed in ascending priority order, threading the
remaining demand. -/
def dispatchGroups : ℚ → List (List GU) → List (List GU) × ℚ
  | r, [] => ([], r)
  | r, grp :: gs =>
    ((dispatchGroup r grp).1 :: (dispatchGroups (dispatchGroup r grp).2 gs).1,
     (dispatchGroups (dispatchGroup r grp).2 gs).2)

/-- Insertion of a rational into an ascending list. -/
def insertAsc (x : ℚ) : List ℚ → List ℚ
  | [] => [x]
  | y :: ys => if x ≤ y then x :: y :: ys else y :: insertAsc x ys

/-- Ascending insertion sort, modelling `sorted(priority_groups.keys())`. -/
def sortAsc (l : List ℚ) : List ℚ := l.foldr insertAsc []

/-- Distinct priorities of the asset list in ascending order. -/
def sortedPriorities (units : List AUnit) : List ℚ :=
  sortAsc (units.map (·.priority)).dedup

/-- Assets of one priority tier, in input order. -/
def groupOf (units : List AUnit) (p : ℚ) : List AUnit :=
  units.filter (fun u => decide (u.priority = p))

/-- Total minimum energy of the asset list (`total_min_energy`). -/
def totalMinEnergy (units : List AUnit) : ℚ := (units.map (·.minEnergy)).sum

/-- Total maximum energy of the asset list (`max_possible_gross`). -/
def totalMaxEnergy (units : List AUnit) : ℚ := (units.map (·.maxEnergy)).sum

/-- Steps 1–2 of `_dispatch_once`: set every asset to minimum, then if demand
exceeds the total minimum, distribute the remainder over the priority groups
in ascending priority order.  Returns the per-group dispatch states (groups in
ascending priority order, assets in input order) together with the reported
remaining demand `max(0, demand_units - total_gross)`. -/
def dispatch_once (units : List AUnit) (demand : ℚ) : List (List GU) × ℚ :=
  let groups := (sortedPriorities units).map (fun p => (groupOf units p).map toGU)
  let remaining := demand - totalMinEnergy units
  let groups' := if remaining > 0 then (dispatchGroups remaining groups).1 else groups
  let totalGross := (groups'.map (fun grp => (grp.map (·.g)).sum)).sum
  (groups', max 0 (demand - totalGross))

/-- Total gross generation of a dispatch result. -/
def totalGross (groups : List (List GU)) : ℚ :=
  (groups.map (fun grp => (grp.map (·.g)).sum)).sum

/-- Water-fill value: the common increment `c` above minimum, capped at the
individual maximum; assets with no headroom stay at their minimum. -/
def waterfill (lo hi c : ℚ) : ℚ := if lo < hi then min (lo + c) hi else lo

/-- Restatement of `waterfill` as a map on dispatch states. -/
def wf (c : ℚ) (u : GU) : GU := { u with g := waterfill u.lo u.hi c }

/-- A priority tier is equally filled when some common increment `c` above
minimum describes every asset's allocation, each capped at its own maximum. -/
def equalFill (grp : List GU) : Prop :=
  ∃ c, 0 ≤ c ∧ ∀ u ∈ grp, u.g = waterfill u.lo u.hi c

end PowerDispatch

namespace PowerFinalize

/-- Convergence tolerance of `power_service.py` (1 MWh). -/
def TOLERANCE : ℚ := 1

/-- Acceptable uncovered deficit after mandatory import:
`max(50.0, total_demand * 0.01)`. -/
def acceptable_deficit (total_demand : ℚ) : ℚ := max 50 (total_demand * (0.01 : ℚ))

/-- Outcome of the tail of `distribute_by_priority`: either the fatal
`insufficientCapacityAfterImport` error return, or the normal result record
(with its `converged` flag and `remainingDemandUnits`, which the source fixes
to `0.0` on the normal path). -/
inductive FinalizeOut where
  | insufficientAfterImport (remaining : ℚ)
  | result (converged : Bool) (remainingDemandUnits : ℚ)
deriving DecidableEq, Repr

/-- Tail of `distribute_by_priority` after the dispatch iteration: mark
converged when the deficit is within tolerance or excess is generated, return
the fatal error only when the uncovered deficit exceeds the acceptable
deficit, and otherwise accept (a small deficit also sets `converged = True`). -/
def finalize_dispatch (total_demand remaining_after_assets excess_power_for_export : ℚ)
    (converged0 : Bool) : FinalizeOut :=
  let converged1 :=
    if remaining_after_assets ≤ TOLERANCE ∨ excess_power_for_export > 0 then true else converged0
  if remaining_after_assets > acceptable_deficit total_demand then
    .insufficientAfterImport remaining_after_assets
  else
    let converged2 := if remaining_after_assets > TOLERANCE then true else converged1
    .result converged2 0

end PowerFinalize

namespace SteamCapacity

/-- One entry of the HRSG availability map consumed by
`calculate_shp_generation_capacity` (fields as in `steam_service.py`). -/
structure HrsgAvailEntry where
  is_available : Bool
  operational_hours : ℚ
  free_steam_mt : ℚ
  min_capacity_mt : ℚ
  max_capacity_mt : ℚ
  efficiency : ℚ
deriving DecidableEq, Repr

/-- Totals returned by `calculate_shp_generation_capacity`. -/
structure ShpCapacity where
  total_free_steam_mt : ℚ
  total_supplementary_min_mt : ℚ
  total_supplementary_max_mt : ℚ
  total_min_shp_capacity : ℚ
  total_max_shp_capacity : ℚ
deriving DecidableEq, Repr

/-- Monthly supplementary minimum of one available HRSG
(`min_capacity_per_hr * hours * efficiency`). -/
def suppMinMonth (h : HrsgAvailEntry) : ℚ :=
  h.min_capacity_mt * h.operational_hours * h.efficiency

/-- Monthly supplementary maximum of one available HRSG
(`max_capacity_per_hr * hours * efficiency`). -/
def suppMaxMonth (h : HrsgAvailEntry) : ℚ :=
  h.max_capacity_mt * h.operational_hours * h.efficiency

/-- Embedding of `calculate_shp_generation_capacity`: free steam and the
supplementary-firing range are totalled over available HRSGs, and the SHP
capacity bounds are set to the supplementary totals only (the source comment:
"Total SHP capacity = Only Supplementary Firing (Free Steam is display
only)"). -/
def calculate_shp_generation_capacity (l : List HrsgAvailEntry) : ShpCapacity :=
  let avail := l.filter (·.is_available)
  let freeS := (avail.map (·.free_steam_mt)).sum
  let suppMin := (avail.map suppMinMonth).sum
  let suppMax := (avail.map suppMaxMonth).sum
  ⟨freeS, suppMin, suppMax, suppMin, suppMax⟩

/-- Entry with its informational free steam removed (used to state that free
steam never influences the balance capacity). -/
def zeroFreeSteam (h : HrsgAvailEntry) : HrsgAvailEntry := { h with free_steam_mt := 0 }

end SteamCapacity

namespace HrsgDispatch

/-- One available HRSG as assembled by `dispatch_hrsg_load`: linked-GT
priority and monthly supplementary-firing bounds. -/
structure HUnit where
  pri : ℚ
  minSupp : ℚ
  maxSupp : ℚ
deriving DecidableEq, Repr

/-- Raw headroom of one HRSG (`max_supp_mt - min_supp_mt`, not clipped). -/
def headroom (h : HUnit) : ℚ := h.maxSupp - h.minSupp

/-- Within-tier allocation of `dispatch_hrsg_load` (Case A): every HRSG of the
tier receives a single equal share `group_allocation / len(group)` of the tier
allocation, capped at its own headroom; there is no redistribution pass. -/
def tierDispatch (grp : List HUnit) (ga : ℚ) : List ℚ :=
  grp.map (fun h =>
    if headroom h > 0 then h.minSupp + min (ga / (grp.length : ℚ)) (headroom h)
    else h.minSupp)

/-- Case A group loop of `dispatch_hrsg_load`: tiers in ascending priority
order; a tier with nonpositive total raw headroom is skipped; the tier
allocation is `min remaining group_available` and the loop deducts the whole
tier allocation from the remainder (even when per-unit caps drop part of it). -/
def caseALoop : ℚ → List (List HUnit) → List (List ℚ) × ℚ
  | r, [] => ([], r)
  | r, grp :: gs =>
    if r ≤ 0 then ((grp :: gs).map (fun g => g.map (·.minSupp)), r)
    else
      let gAvail := (grp.map headroom).sum
      if gAvail ≤ 0 then
        let q := caseALoop r gs
        (grp.map (·.minSupp) :: q.1, q.2)
      else
        let ga := min r gAvail
        let q := caseALoop (r - ga) gs
        (tierDispatch grp ga :: q.1, q.2)

/-- Distinct linked-GT priorities in ascending order. -/
def hrsgPriorities (hs : List HUnit) : List ℚ :=
  PowerDispatch.sortAsc (hs.map (·.pri)).dedup

/-- HRSGs of one priority tier, in input order. -/
def hrsgGroupOf (hs : List HUnit) (p : ℚ) : List HUnit :=
  hs.filter (fun h => decide (h.pri = p))

/-- Result of `dispatch_hrsg_load` restricted to the fields the claims use. -/
structure HrsgDispatchResult where
  required_supp_firing_mt : ℚ
  dispatched : List (List ℚ)
  total_dispatched_supp_mt : ℚ
  excess_steam_mt : ℚ
  can_meet_demand : Bool
deriving DecidableEq, Repr

/-- Embedding of `dispatch_hrsg_load` over the available HRSGs: the required
supplementary firing equals the full SHP demand (free steam is not
subtracted); Case A raises tiers above minimum in priority order; Cases B/C
leave every HRSG at minimum and report the excess at minimum load.  The
dispatched amounts are returned per tier (tiers ascending by priority, HRSGs
in input order). -/
def dispatch_hrsg_load (hs : List HUnit) (shp_demand : ℚ) : HrsgDispatchResult :=
  let totalMin := (hs.map (·.minSupp)).sum
  let minSupply := totalMin
  let requiredSupp := shp_demand
  let groups := (hrsgPriorities hs).map (hrsgGroupOf hs)
  if hs.isEmpty then
    ⟨requiredSupp, [], 0, 0, decide (shp_demand ≤ 0)⟩
  else if shp_demand > minSupply then
    let additional := requiredSupp - totalMin
    let p := caseALoop additional groups
    let dispatched := p.1
    let total := (dispatched.map (·.sum)).sum
    ⟨requiredSupp, dispatched, total, 0, decide (¬ p.2 > 0)⟩
  else
    let dispatched := groups.map (fun g => g.map (·.minSupp))
    let excessAtMin := minSupply - shp_demand
    ⟨requiredSupp, dispatched, totalMin, if excessAtMin > 0 then excessAtMin else 0, true⟩

end HrsgDispatch

namespace Lookup

/-- Clamp flag of `get_stg_extraction_for_load` (`"min"` / `"max"`). -/
inductive Clamp where
  | cmin
  | cmax
deriving DecidableEq, Repr

/-- One row of the `STGExtractionLookup` table (fetched sorted ascending by
`LoadMW`). -/
structure ExtRow where
  LoadMW : ℚ
  SLExtFlowTPH : ℚ
  SMBleedFlowTPH : ℚ
  SVHInletTPH : ℚ
  CondensingLoadM3Hr : ℚ
  HeatRateKcalKWH : ℚ
  EqSvhMp : ℚ
  EqSvhLp : ℚ
  SteamForPower : ℚ
  SpSteamPower : ℚ
deriving DecidableEq, Repr

/-- Result dictionary of `get_stg_extraction_for_load`. -/
structure ExtOut where
  lp_extraction_tph : ℚ
  mp_extraction_tph : ℚ
  shp_inlet_tph : ℚ
  condensing_load_m3hr : ℚ
  heat_rate : ℚ
  eq_svh_mp_tph : ℚ
  eq_svh_lp_tph : ℚ
  steam_for_power_tph : ℚ
  sp_steam_power : ℚ
  load_mw : ℚ
  interpolated : Bool
  clamped : Option Clamp
deriving DecidableEq, Repr

/-- The all-zero default returned for an empty lookup table and for
`stg_load_mw <= 0`. -/
def zeroExtOut : ExtOut := ⟨0, 0, 0, 0, 0, 0, 0, 0, 0, 0, false, none⟩

/-- Result built from one stored row. -/
def rowOut (r : ExtRow) (load : ℚ) (interp : Bool) (cl : Option Clamp) : ExtOut :=
  ⟨r.SLExtFlowTPH, r.SMBleedFlowTPH, r.SVHInletTPH, r.CondensingLoadM3Hr, r.HeatRateKcalKWH,
   r.EqSvhMp, r.EqSvhLp, r.SteamForPower, r.SpSteamPower, load, interp, cl⟩

/-- Linear interpolation of one column: `lower + factor * (upper - lower)`. -/
def lerp (a b f : ℚ) : ℚ := a + f * (b - a)

/-- Result built by interpolating every column between the bracketing rows. -/
def lerpRows (lower upper : ExtRow) (f x : ℚ) : ExtOut :=
  ⟨lerp lower.SLExtFlowTPH upper.SLExtFlowTPH f,
   lerp lower.SMBleedFlowTPH upper.SMBleedFlowTPH f,
   lerp lower.SVHInletTPH upper.SVHInletTPH f,
   lerp lower.CondensingLoadM3Hr upper.CondensingLoadM3Hr f,
   lerp lower.HeatRateKcalKWH upper.HeatRateKcalKWH f,
   lerp lower.EqSvhMp upper.EqSvhMp f,
   lerp lower.EqSvhLp upper.EqSvhLp f,
   lerp lower.SteamForPower upper.SteamForPower f,
   lerp lower.SpSteamPower upper.SpSteamPower f,
   x, true, none⟩

/-- First row minimizing `|LoadMW - x|` (the `idxmin` fallback of the
source, reached only when one side of the bracket is empty). -/
def nearestRow (c : List ExtRow) (x : ℚ) : Option ExtRow :=
  c.foldl (fun best r =>
    match best with
    | none => some r
    | some b => if |r.LoadMW - x| < |b.LoadMW - x| then some r else best) none

/-- Embedding of `get_stg_extraction_for_load`: empty table and nonpositive
loads yield the zero default; loads strictly below the minimum breakpoint
clamp to the minimum-load row with flag `"min"`; loads strictly above the
maximum clamp to the maximum-load row with flag `"max"`; an exact breakpoint
match returns that row unchanged with `interpolated = false` and no clamp
flag; otherwise the two bracketing rows (last row below, first row above) are
interpolated linearly with `interpolated = true`. -/
def get_stg_extraction_for_load : List ExtRow → ℚ → ExtOut
  | [], _ => zeroExtOut
  | r₀ :: rs, x =>
    let c := r₀ :: rs
    let minLoad := (rs.map (·.LoadMW)).foldl min r₀.LoadMW
    let maxLoad := (rs.map (·.LoadMW)).foldl max r₀.LoadMW
    if x ≤ 0 then zeroExtOut
    else if x < minLoad then
      match c.find? (fun r => decide (r.LoadMW = minLoad)) with
      | some r => rowOut r minLoad false (some .cmin)
      | none => zeroExtOut
    else if x > maxLoad then
      match c.find? (fun r => decide (r.LoadMW = maxLoad)) with
      | some r => rowOut r maxLoad false (some .cmax)
      | none => zeroExtOut
    else
      match c.find? (fun r => decide (r.LoadMW = x)) with
      | some r => rowOut r x false none
      | none =>
        match (c.filter (fun r => decide (r.LoadMW < x))).getLast?,
              (c.filter (fun r => decide (x < r.LoadMW))).head? with
        | some lower, some upper =>
          let range := upper.LoadMW - lower.LoadMW
          let factor := if range > 0 then (x - lower.LoadMW) / range else 0
          lerpRows lower upper factor x
        | _, _ =>
          match nearestRow c x with
          | some r => rowOut r r.LoadMW false none
          | none => zeroExtOut

/-- Mode selection of `usd_iterate` STEP 0: an empty STG extraction lookup
table is a warning that switches the run to legacy fixed ratios; it is not an
error and the iteration loop still runs. -/
def use_stg_load_based (lookup : List ExtRow) : Bool := !lookup.isEmpty

/-- One row of the GT `HeatRateLookup` table. -/
structure HRRow where
  GTLoad : ℚ
  HeatRate : ℚ
  FreeSteamFactor : ℚ
deriving DecidableEq, Repr

/-- Stable insertion into a list sorted ascending by `GTLoad`. -/
def insertByLoad (r : HRRow) : List HRRow → List HRRow
  | [] => [r]
  | s :: ss => if r.GTLoad ≤ s.GTLoad then r :: s :: ss else s :: insertByLoad r ss

/-- The `df.sort_values("GTLoad")` step of `get_heat_rate_for_load`. -/
def sortByLoad (l : List HRRow) : List HRRow := l.foldr insertByLoad []

/-- Row scan of `get_heat_rate_for_load`: exact match within `1e-9` returns
the row's values, otherwise the last row below and the first row above the
query are collected (the loop breaks at the first row above). -/
def hrScan (x : ℚ) : List HRRow → Option HRRow → Option HRRow →
    (ℚ × ℚ) ⊕ (Option HRRow × Option HRRow)
  | [], lower, upper => .inr (lower, upper)
  | r :: rest, lower, upper =>
    if |r.GTLoad - x| < (1e-9 : ℚ) then .inl (r.HeatRate, r.FreeSteamFactor)
    else if r.GTLoad < x then hrScan x rest (some r) upper
    else if r.GTLoad > x ∧ upper = none then .inr (lower, some r)
    else hrScan x rest lower upper

/-- Embedding of `get_heat_rate_for_load`: `None` for an empty table, clamp
to the first/last row outside the table range, otherwise exact match or
linear interpolation between the bracketing rows (with a divide-by-zero
fallback to the lower row). -/
def get_heat_rate_for_load (heat : List HRRow) (load : ℚ) : Option (ℚ × ℚ) :=
  match sortByLoad heat with
  | [] => none
  | r₀ :: rs =>
    let df := r₀ :: rs
    let minLoad := r₀.GTLoad
    let maxLoad := (df.getLast (by simp)).GTLoad
    if load ≤ minLoad then some (r₀.HeatRate, r₀.FreeSteamFactor)
    else if load ≥ maxLoad then
      some ((df.getLast (by simp)).HeatRate, (df.getLast (by simp)).FreeSteamFactor)
    else
      match hrScan load df none none with
      | .inl v => some v
      | .inr (some lower, some upper) =>
        if |upper.GTLoad - lower.GTLoad| < (1e-9 : ℚ) then
          some (lower.HeatRate, lower.FreeSteamFactor)
        else
          let frac := (load - lower.GTLoad) / (upper.GTLoad - lower.GTLoad)
          some (lerp lower.HeatRate upper.HeatRate frac,
                lerp lower.FreeSteamFactor upper.FreeSteamFactor frac)
      | .inr _ => none

/-- Betweenness of an interpolated column value relative to the two
bracketing stored values: equal for a flat segment, strictly between
otherwise. -/
def Between (a b y : ℚ) : Prop :=
  (a = b → y = a) ∧ (a < b → a < y ∧ y < b) ∧ (b < a → b < y ∧ y < a)

end Lookup

namespace UsdController

/-- Convergence tolerance of the USD loop (MWh). -/
def USD_TOLERANCE : ℚ := 0.0000001

/-- SHP steam needed per KWh of STG generation (MT/KWh). -/
def NORM_STG_SHP_PER_KWH : ℚ := 0.00356

/-- Steam-to-power conversion used for excess steam (MT of SHP per MWh). -/
def STEAM_TO_POWER_MT_PER_MWH : ℚ := 3.56

/-- Observations one iteration of `usd_iterate` extracts from its
collaborators (power dispatch, steam balance, HRSG dispatch, U4U estimate)
before the corrective-action logic runs. -/
structure IterObs where
  curAux : ℚ
  stgGross : ℚ
  stgCapacityMW : ℚ
  stgHours : ℚ
  shpDemand : ℚ
  maxShpCapacity : ℚ
  baseShpDemand : ℚ
  excessSteam : ℚ
  gtAvailReduction : ℚ
deriving DecidableEq, Repr

/-- Mutable state the USD loop carries across iterations. -/
structure CtrlState where
  prevAux : ℚ
  stgReduction : ℚ
  importComp : ℚ
  stgOrigMax : Option ℚ
  stgSteamLimit : Option ℚ
  stgMinOverride : Option ℚ
  gtReductionForBalance : ℚ
  powerInitiallyConverged : Bool
deriving DecidableEq, Repr

/-- Initial state of the USD loop. -/
def usdInit : CtrlState := ⟨0, 0, 0, none, none, none, 0, false⟩

/-- Outcome of one iteration: converged break, SHP-impossible break, or
continue into the next iteration; the `action` string mirrors the
`iteration_record["action"]` tag of the break path. -/
inductive StepOut where
  | done (s : CtrlState) (action : String)
  | failed (s : CtrlState) (action : String)
  | next (s : CtrlState) (action : String)
deriving DecidableEq, Repr

/-- State carried by a step outcome. -/
def stepState : StepOut → CtrlState
  | .done s _ => s
  | .failed s _ => s
  | .next s _ => s

/-- End-of-iteration bookkeeping on the continue path: the steam-based STG
limit for the next iteration and `previous_utility_aux_mwh`. -/
def advance (s : CtrlState) (o : IterObs) : CtrlState :=
  let availShp := o.maxShpCapacity - o.baseShpDemand
  let lim := if availShp > 0 then availShp / NORM_STG_SHP_PER_KWH / 1000 else 0
  { s with stgSteamLimit := some lim, prevAux := o.curAux }

/-- Capture of the original STG maximum on the first iteration in which the
STG generates (`CapacityMW * Hours` of the STG asset in the dispatch). -/
def captureOrigMax (s : CtrlState) (o : IterObs) : Option ℚ :=
  match s.stgOrigMax with
  | none => if o.stgGross > 0 then some (o.stgCapacityMW * o.stgHours) else none
  | some m => some m

/-- Aux-power convergence error `abs(current - previous)`. -/
def auxErr (s : CtrlState) (o : IterObs) : ℚ := |o.curAux - s.prevAux|

/-- SHP deficit of the iteration (`shp_demand - max_shp_capacity`). -/
def shpDef (o : IterObs) : ℚ := o.shpDemand - o.maxShpCapacity

/-- Power-initially-converged flag: latched once the aux error drops below
10 MWh. -/
def picFlag (s : CtrlState) (o : IterObs) : Bool :=
  s.powerInitiallyConverged || decide (auxErr s o < 10)

/-- Excess-steam balancing amount: the smaller of the steam-to-power
equivalent of the excess, the STG headroom, and the GT reducible headroom. -/
def actualStgIncrease (o : IterObs) : ℚ :=
  let excessPower := if o.excessSteam > 0 then o.excessSteam / STEAM_TO_POWER_MT_PER_MWH else 0
  min (min excessPower (o.stgCapacityMW * o.stgHours - o.stgGross)) o.gtAvailReduction

/-- Whether the excess-steam balancing fires: excess exists, power is
initially converged, and the possible increase exceeds 50 MWh. -/
def didBalance (s : CtrlState) (o : IterObs) : Bool :=
  decide (o.excessSteam > 0) && picFlag s o && decide (actualStgIncrease o > 50)

/-- Surplus recovery amount: 50%-damped recoverable STG, at most the current
cumulative reduction. -/
def actualRecovery (s : CtrlState) (o : IterObs) : ℚ :=
  min (|shpDef o| / NORM_STG_SHP_PER_KWH / 1000 * (0.5 : ℚ)) s.stgReduction

/-- Whether the surplus recovery fires: SHP can be met with strict surplus, a
prior reduction exists, and the recovery is meaningful (`> 0.1`). -/
def didRecover (s : CtrlState) (o : IterObs) : Bool :=
  decide (shpDef o ≤ 0) && decide (shpDef o < 0) &&
    decide (s.stgReduction > 0) && decide (actualRecovery s o > 0.1)

/-- State update common to every exit of one iteration: capture the original
STG maximum, latch the power-initially-converged flag, apply the excess-steam
balancing outputs (STG min override and the identical GT reduction), and
apply the damped surplus recovery to the cumulative reduction. -/
def baseUpdate (s : CtrlState) (o : IterObs) : CtrlState :=
  { s with
    stgOrigMax := captureOrigMax s o,
    stgMinOverride :=
      if didBalance s o then
        some (min (o.stgGross + actualStgIncrease o) (o.stgCapacityMW * o.stgHours))
      else s.stgMinOverride,
    gtReductionForBalance := if didBalance s o then actualStgIncrease o
                             else s.gtReductionForBalance,
    powerInitiallyConverged := picFlag s o,
    stgReduction := if didRecover s o then s.stgReduction - actualRecovery s o
                    else s.stgReduction,
    importComp := if didRecover s o then s.stgReduction - actualRecovery s o
                  else s.importComp }

/-- Deficit-driven STG reduction: add `shp_deficit / 0.00356 / 1000` to the
cumulative reduction, cap it at the captured original STG maximum, and treat
the reduced amount as mandatory import compensation. -/
def reduceUpdate (s' : CtrlState) (o : IterObs) : CtrlState :=
  let forShp := shpDef o / NORM_STG_SHP_PER_KWH / 1000
  let red := s'.stgReduction + forShp
  let red' := match s'.stgOrigMax with
    | some m => min red m
    | none => red
  { s' with stgReduction := red', importComp := red' }

/-- One iteration of the USD loop after the dispatch/steam observations are
in hand, mirroring `usd_iterate` STEP 3g–3h in source order: excess-steam
balancing, surplus recovery, convergence check (converged only when the aux
error is within tolerance, SHP demand is met, and no STG move happened this
iteration), then the deficit branch — failing immediately with action
`SHP_IMPOSSIBLE` when STG is already at zero, otherwise accumulating the
capped reduction and continuing. -/
def usdStep (s : CtrlState) (o : IterObs) : StepOut :=
  let sBase := baseUpdate s o
  if decide (auxErr s o ≤ USD_TOLERANCE) && decide (shpDef o ≤ 0) &&
      !(didBalance s o || didRecover s o) then
    .done sBase "CONVERGED"
  else if decide (¬ shpDef o ≤ 0) && decide (shpDef o > 0) then
    if o.stgGross ≤ 0 then .failed sBase "SHP_IMPOSSIBLE"
    else .next (advance (reduceUpdate sBase o) o) "REDUCE_STG"
  else
    .next (advance sBase o) "POWER_ITERATING"

/-- The USD iteration loop over a finite schedule of observations: runs until
a break or the schedule (the 50-iteration cap) is exhausted; returns the
converged flag, the final state and the recorded break/continue actions. -/
def usdRun : CtrlState → List IterObs → Bool × CtrlState × List String
  | s, [] => (false, s, [])
  | s, o :: os =>
    match usdStep s o with
    | .done s' a => (true, s', [a])
    | .failed s' a => (false, s', [a])
    | .next s' a =>
      let q := usdRun s' os
      (q.1, q.2.1, a :: q.2.2)

/-- States after each completed iteration of a run. -/
def usdRunStates : CtrlState → List IterObs → List CtrlState
  | _, [] => []
  | s, o :: os =>
    match usdStep s o with
    | .done s' _ => [s']
    | .failed s' _ => [s']
    | .next s' _ => s' :: usdRunStates s' os

/-- The `error_type` field of the dictionary `usd_iterate` returns:
`None` when converged, otherwise the string `"USD_NOT_CONVERGED"` — on every
non-converged exit, the SHP-impossible break included. -/
def usd_error_type (converged : Bool) : Option String :=
  if converged then none else some "USD_NOT_CONVERGED"

/-- Supplementary firing needed as computed by the iteration loop: the full
SHP demand, free steam not subtracted (`supplementary_firing_needed =
shp_demand`). -/
def supplementary_firing_needed (shp_demand : ℚ) : ℚ := shp_demand

/-- The claim C3 invariant: the cumulative STG reduction is non-negative and
never exceeds the captured original STG maximum. -/
def reductionWithinOriginalMax (s : CtrlState) : Prop :=
  0 ≤ s.stgReduction ∧ s.stgOrigMax.elim True (fun m => s.stgReduction ≤ m)

/-- Strengthened internal invariant for the run induction. -/
def ReductionInv (s : CtrlState) : Prop :=
  0 ≤ s.stgReduction ∧
    s.stgOrigMax.elim (s.stgReduction = 0) (fun m => 0 ≤ m ∧ s.stgReduction ≤ m)

/-- Observation wellformedness used by the invariant: capacities and hours
are non-negative. -/
def GoodObs (o : IterObs) : Prop := 0 ≤ o.stgCapacityMW ∧ 0 ≤ o.stgHours

end UsdController

/-! ## Theorems -/

namespace PowerFinalize

/-- C10: after import power and asset dispatch, `distribute_by_priority`
reports the fatal insufficient-capacity-after-import error exactly when the
uncovered deficit exceeds `max(50 MWh, 1% of total demand)`; any deficit at or
below that threshold is accepted and the result is returned as converged, so
supply may under-cover demand by up to that margin without an error. -/
theorem c10_acceptable_deficit_gate (td ra ex : ℚ) (c0 : Bool) :
    finalize_dispatch td ra ex c0 =
      if ra > acceptable_deficit td then FinalizeOut.insufficientAfterImport ra
      else FinalizeOut.result true 0 := by
  unfold finalize_dispatch
  by_cases h1 : ra > acceptable_deficit td
  · simp [h1]
  · have hra : ra ≤ acceptable_deficit td := le_of_not_lt h1
    by_cases h2 : ra > TOLERANCE
    · simp [h1, h2]
    · have h3 : ra ≤ TOLERANCE := le_of_not_lt h2
      simp [h1, h2, h3]

end PowerFinalize

namespace SteamCapacity

theorem zeroFree_filter (l : List HrsgAvailEntry) :
    (l.map zeroFreeSteam).filter (·.is_available) =
      (l.filter (·.is_available)).map zeroFreeSteam := by
  induction l with
  | nil => rfl
  | cons h t ih =>
    by_cases hA : h.is_available
    · simp [List.filter_cons, zeroFreeSteam, hA, ih]
    · simp [List.filter_cons, zeroFreeSteam, hA, ih]

/-- C5: HRSG free steam is never counted toward satisfiable SHP supply: the
capacity compared against demand equals the total supplementary-firing
capacity only (and is unchanged if all free steam is zeroed out), and the
supplementary firing required equals the full SHP demand with free steam not
subtracted — both in the iteration loop and in the HRSG dispatcher. -/
theorem c5_free_steam_not_counted (l : List HrsgAvailEntry) (d : ℚ)
    (hs : List HrsgDispatch.HUnit) :
    (calculate_shp_generation_capacity l).total_max_shp_capacity =
      (calculate_shp_generation_capacity l).total_supplementary_max_mt
    ∧ (calculate_shp_generation_capacity (l.map zeroFreeSteam)).total_max_shp_capacity =
      (calculate_shp_generation_capacity l).total_max_shp_capacity
    ∧ (calculate_shp_generation_capacity (l.map zeroFreeSteam)).total_min_shp_capacity =
      (calculate_shp_generation_capacity l).total_min_shp_capacity
    ∧ UsdController.supplementary_firing_needed d = d
    ∧ (HrsgDispatch.dispatch_hrsg_load hs d).required_supp_firing_mt = d := by
  refine ⟨rfl, ?_, ?_, rfl, ?_⟩
  · simp only [calculate_shp_generation_capacity, zeroFree_filter, List.map_map]
    rfl
  · simp only [calculate_shp_generation_capacity, zeroFree_filter, List.map_map]
    rfl
  · unfold HrsgDispatch.dispatch_hrsg_load
    by_cases h1 : hs.isEmpty
    · simp [h1]
    · by_cases h2 : d > (hs.map (·.minSupp)).sum
      · simp [h1, h2]
      · simp [h1, h2]

end SteamCapacity

namespace Lookup

/-- C9 counterexample: querying the empty STG extraction lookup returns the
all-zero default dictionary (no `EmptyCurveError` exists anywhere in the
code), the empty GT heat-rate lookup returns `None`, and an empty lookup
table merely switches `usd_iterate` to legacy fixed ratios instead of raising
a fatal configuration error before the iteration loop. -/
theorem c9_counterexample :
    get_stg_extraction_for_load [] 15 = zeroExtOut
    ∧ get_heat_rate_for_load [] 15 = none
    ∧ use_stg_load_based [] = false := ⟨rfl, rfl, rfl⟩

/-- C9 amended: for every query on a curve with zero points the interpolation
does not fail — `get_stg_extraction_for_load` returns the all-zero default
and `get_heat_rate_for_load` returns `None` — and an empty lookup table is
not fatal: the run proceeds into the iteration loop in legacy fixed-ratio
mode. -/
theorem c9_empty_lookup_defaults (x : ℚ) :
    get_stg_extraction_for_load [] x = zeroExtOut
    ∧ get_heat_rate_for_load [] x = none
    ∧ use_stg_load_based [] = false := ⟨rfl, rfl, rfl⟩

end Lookup

namespace UsdController

/-- C2 counterexample: with STG at zero and an SHP deficit in the very first
iteration, the run does terminate immediately (only one iteration record,
tagged `SHP_IMPOSSIBLE`) with `converged = false`, but the returned
`error_type` is `"USD_NOT_CONVERGED"`, not `"SHP_IMPOSSIBLE"` as claimed. -/
theorem c2_counterexample :
    usdRun usdInit [⟨5, 0, 25, 720, 50000, 40000, 30000, 0, 0⟩,
                    ⟨5, 0, 25, 720, 50000, 40000, 30000, 0, 0⟩]
      = (false, ⟨0, 0, 0, none, none, none, 0, true⟩, ["SHP_IMPOSSIBLE"])
    ∧ usd_error_type false = some "USD_NOT_CONVERGED"
    ∧ (some "USD_NOT_CONVERGED" : Option String) ≠ some "SHP_IMPOSSIBLE" := by
  refine ⟨?_, rfl, by decide⟩
  norm_num [usdRun, usdStep, usdInit, USD_TOLERANCE, advance, baseUpdate, captureOrigMax,
    auxErr, shpDef, picFlag, actualStgIncrease, didBalance, actualRecovery, didRecover,
    reduceUpdate]

end UsdController

namespace UsdController

theorem usdStep_shp_impossible (s : CtrlState) (o : IterObs)
    (hdef : shpDef o > 0) (hstg : o.stgGross ≤ 0) :
    usdStep s o = .failed (baseUpdate s o) "SHP_IMPOSSIBLE" := by
  have h1 : ¬ (shpDef o ≤ 0) := not_le.mpr hdef
  unfold usdStep
  simp [h1, hdef, hstg]

/-- C2 amended: whenever an iteration observes an SHP deficit while the STG
dispatch is already at zero, `usd_iterate` terminates the loop immediately —
no further iterations run — with `converged = false` and the final iteration
record tagged `SHP_IMPOSSIBLE`; the returned `error_type` field, however, is
`"USD_NOT_CONVERGED"` (the generic non-converged tag), not
`"SHP_IMPOSSIBLE"`. -/
theorem c2_shp_impossible_terminates (s : CtrlState) (o : IterObs) (os : List IterObs)
    (hdef : o.shpDemand - o.maxShpCapacity > 0) (hstg : o.stgGross ≤ 0) :
    (usdRun s (o :: os)).1 = false
    ∧ (usdRun s (o :: os)).2.2 = ["SHP_IMPOSSIBLE"]
    ∧ usd_error_type (usdRun s (o :: os)).1 = some "USD_NOT_CONVERGED" := by
  have hs' := usdStep_shp_impossible s o hdef hstg
  simp [usdRun, hs', usd_error_type]

/-- C2 witness: the amended claim instantiated at a concrete deficit
iteration. -/
theorem c2_shp_impossible_terminates_witness :
    (usdRun usdInit [⟨7, 0, 25, 720, 60000, 40000, 30000, 0, 0⟩]).1 = false
    ∧ (usdRun usdInit [⟨7, 0, 25, 720, 60000, 40000, 30000, 0, 0⟩]).2.2 = ["SHP_IMPOSSIBLE"]
    ∧ usd_error_type (usdRun usdInit [⟨7, 0, 25, 720, 60000, 40000, 30000, 0, 0⟩]).1
      = some "USD_NOT_CONVERGED" :=
  c2_shp_impossible_terminates usdInit ⟨7, 0, 25, 720, 60000, 40000, 30000, 0, 0⟩ []
    (by norm_num) (by norm_num)

/-- C4 counterexample: an iteration with positive excess steam (142.4 MT),
power initially converged, and both STG headroom (8,000 MWh) and GT reducible
headroom (5,000 MWh) strictly positive, where the smaller of the three
quantities is 40 MWh: because 40 ≤ 50, the controller performs no rebalance —
the commanded GT reduction stays 0 and no STG minimum override is set —
contradicting the claim that it always increases STG by `min` of the three
and reduces GT by the same amount. -/
theorem c4_counterexample :
    actualStgIncrease ⟨0, 10000, 25, 720, 40000, 40000, 30000, 142.4, 5000⟩ = 40
    ∧ ((142.4 : ℚ) > 0 ∧ (25 * 720 - 10000 : ℚ) > 0 ∧ (5000 : ℚ) > 0)
    ∧ (stepState (usdStep ⟨0, 0, 0, none, none, none, 0, true⟩
        ⟨0, 10000, 25, 720, 40000, 40000, 30000, 142.4, 5000⟩)).gtReductionForBalance = 0
    ∧ (stepState (usdStep ⟨0, 0, 0, none, none, none, 0, true⟩
        ⟨0, 10000, 25, 720, 40000, 40000, 30000, 142.4, 5000⟩)).stgMinOverride = none
    ∧ (0 : ℚ) ≠ 40 := by
  refine ⟨?_, ⟨by norm_num, by norm_num, by norm_num⟩, ?_, ?_, by norm_num⟩ <;>
    norm_num [usdStep, stepState, baseUpdate, captureOrigMax, auxErr, shpDef, picFlag,
      actualStgIncrease, didBalance, actualRecovery, didRecover, reduceUpdate, advance,
      USD_TOLERANCE, STEAM_TO_POWER_MT_PER_MWH, NORM_STG_SHP_PER_KWH]

/-- C4 amended: in every iteration with excess steam at HRSG minimum load,
power initially near-converged, and a possible STG increase
`min(steam-to-power equivalent at 3.56 MT/MWh, STG headroom, GT reducible
headroom)` exceeding the 50 MWh materiality threshold, the controller
commands an STG increase of exactly that amount (as the STG minimum override)
and a GT reduction of exactly the same amount in the same step, so the
commanded net power change is zero. -/
theorem c4_excess_steam_balance (s : CtrlState) (o : IterObs)
    (hex : o.excessSteam > 0)
    (hpic : s.powerInitiallyConverged = true ∨ |o.curAux - s.prevAux| < 10)
    (hbig : actualStgIncrease o > 50) :
    (stepState (usdStep s o)).gtReductionForBalance = actualStgIncrease o
    ∧ (stepState (usdStep s o)).stgMinOverride =
      some (min (o.stgGross + actualStgIncrease o) (o.stgCapacityMW * o.stgHours)) := by
  have hb : didBalance s o = true := by
    unfold didBalance picFlag auxErr
    rcases hpic with h | h <;> simp [h, hex, hbig]
  have hfields : (baseUpdate s o).gtReductionForBalance = actualStgIncrease o
      ∧ (baseUpdate s o).stgMinOverride =
        some (min (o.stgGross + actualStgIncrease o) (o.stgCapacityMW * o.stgHours)) := by
    simp [baseUpdate, hb]
  unfold usdStep
  split_ifs <;> simp only [stepState, advance, reduceUpdate] <;> exact hfields

/-- C4 witness: the amended claim instantiated at a concrete iteration with
712 MT of excess steam (a 200 MWh increase, above the threshold). -/
theorem c4_excess_steam_balance_witness :
    (stepState (usdStep ⟨0, 0, 0, none, none, none, 0, true⟩
        ⟨0, 10000, 25, 720, 40000, 40000, 30000, 712, 5000⟩)).gtReductionForBalance =
      actualStgIncrease ⟨0, 10000, 25, 720, 40000, 40000, 30000, 712, 5000⟩
    ∧ (stepState (usdStep ⟨0, 0, 0, none, none, none, 0, true⟩
        ⟨0, 10000, 25, 720, 40000, 40000, 30000, 712, 5000⟩)).stgMinOverride =
      some (min ((10000 : ℚ) + actualStgIncrease ⟨0, 10000, 25, 720, 40000, 40000, 30000, 712, 5000⟩)
        ((25 : ℚ) * 720)) :=
  c4_excess_steam_balance ⟨0, 0, 0, none, none, none, 0, true⟩
    ⟨0, 10000, 25, 720, 40000, 40000, 30000, 712, 5000⟩
    (by norm_num) (Or.inl rfl)
    (by norm_num [actualStgIncrease, STEAM_TO_POWER_MT_PER_MWH])

theorem actualRecovery_nonneg (s : CtrlState) (o : IterObs) (h : 0 ≤ s.stgReduction) :
    0 ≤ actualRecovery s o := by
  refine le_min ?_ h
  have : (0:ℚ) < NORM_STG_SHP_PER_KWH := by norm_num [NORM_STG_SHP_PER_KWH]
  positivity

theorem reductionInv_baseUpdate (s : CtrlState) (o : IterObs)
    (h : ReductionInv s) (ho : GoodObs o) : ReductionInv (baseUpdate s o) := by
  obtain ⟨h0, hm⟩ := h
  obtain ⟨hc, hh⟩ := ho
  have hrec := actualRecovery_nonneg s o h0
  have hle : actualRecovery s o ≤ s.stgReduction := min_le_right _ _
  have hred : (if didRecover s o then s.stgReduction - actualRecovery s o
      else s.stgReduction) ≤ s.stgReduction := by split_ifs <;> linarith
  have hred0 : 0 ≤ (if didRecover s o then s.stgReduction - actualRecovery s o
      else s.stgReduction) := by split_ifs <;> linarith
  constructor
  · simpa [baseUpdate] using hred0
  · simp only [baseUpdate, captureOrigMax]
    rcases hs : s.stgOrigMax with _ | m
    · rw [hs] at hm
      simp only [Option.elim] at hm
      have hnr : didRecover s o = false := by
        unfold didRecover
        simp [hm]
      by_cases hg : o.stgGross > 0
      · simp [hg, hnr, hm, mul_nonneg hc hh]
      · simp [hg, hnr, hm]
    · rw [hs] at hm
      simp only [Option.elim] at hm
      simp only [Option.elim]
      exact ⟨hm.1, le_trans (by simpa [baseUpdate] using hred) hm.2⟩

theorem reductionInv_advance (s : CtrlState) (o : IterObs)
    (h : ReductionInv s) : ReductionInv (advance s o) := by
  obtain ⟨h0, hm⟩ := h
  exact ⟨h0, hm⟩

theorem reductionInv_reduceUpdate (s' : CtrlState) (o : IterObs)
    (h : ReductionInv s') (hdef : shpDef o > 0) (m : ℚ)
    (hsome : s'.stgOrigMax = some m) : ReductionInv (reduceUpdate s' o) := by
  obtain ⟨h0, hm⟩ := h
  rw [hsome] at hm
  simp only [Option.elim] at hm
  have hf : (0:ℚ) ≤ shpDef o / NORM_STG_SHP_PER_KWH / 1000 := by
    have : (0:ℚ) < NORM_STG_SHP_PER_KWH := by norm_num [NORM_STG_SHP_PER_KWH]
    positivity
  constructor
  · simp only [reduceUpdate, hsome]
    exact le_min (by linarith) hm.1
  · simp only [reduceUpdate, hsome, Option.elim]
    exact ⟨hm.1, min_le_right _ _⟩

theorem captureOrigMax_some (s : CtrlState) (o : IterObs) (hg : o.stgGross > 0) :
    ∃ m, captureOrigMax s o = some m := by
  rcases hs : s.stgOrigMax with _ | m
  · exact ⟨o.stgCapacityMW * o.stgHours, by simp [captureOrigMax, hs, hg]⟩
  · exact ⟨m, by simp [captureOrigMax, hs]⟩

theorem reductionInv_step (s : CtrlState) (o : IterObs)
    (h : ReductionInv s) (ho : GoodObs o) :
    ReductionInv (stepState (usdStep s o)) := by
  have hbase := reductionInv_baseUpdate s o h ho
  unfold usdStep
  split_ifs with h1 h2 h3
  · exact hbase
  · exact hbase
  · have hdef : shpDef o > 0 := by
      simp only [Bool.and_eq_true, decide_eq_true_eq] at h2
      exact h2.2
    have hg : o.stgGross > 0 := lt_of_not_le h3
    obtain ⟨m, hm⟩ : ∃ m, (baseUpdate s o).stgOrigMax = some m := by
      have := captureOrigMax_some s o hg
      simpa [baseUpdate] using this
    exact reductionInv_advance _ o (reductionInv_reduceUpdate _ o hbase hdef m hm)
  · exact reductionInv_advance _ o hbase

theorem reductionInv_runStates (os : List IterObs) (s : CtrlState)
    (h : ReductionInv s) (hgood : ∀ o ∈ os, GoodObs o) :
    ∀ s' ∈ usdRunStates s os, ReductionInv s' := by
  induction os generalizing s with
  | nil => intro s' hs'; simp [usdRunStates] at hs'
  | cons o os ih =>
    intro s' hs'
    have hstep := reductionInv_step s o h (hgood o (by simp))
    unfold usdRunStates at hs'
    rcases hu : usdStep s o with s₁ | s₁ | s₁ <;> rw [hu] at hs'
    · simp at hs'
      subst hs'
      simpa [stepState, hu] using hstep
    · simp at hs'
      subst hs'
      simpa [stepState, hu] using hstep
    · rcases List.mem_cons.mp hs' with h' | h'
      · subst h'
        simpa [stepState, hu] using hstep
      · exact ih s₁ (by simpa [stepState, hu] using hstep)
          (fun o' ho' => hgood o' (by simp [ho'])) s' h'

/-- C3: in every run of the USD loop (any sequence of iterations with
non-negative STG capacity and operating-hours observations), the state after
each iteration's corrective actions has a cumulative `stg_reduction_mwh` that
is non-negative and never exceeds the captured original STG maximum monthly
energy (original maximum capacity MW × operating hours). -/
theorem c3_stg_reduction_bounded (os : List IterObs) (hgood : ∀ o ∈ os, GoodObs o)
    (s' : CtrlState) (hmem : s' ∈ usdRunStates usdInit os) :
    reductionWithinOriginalMax s' := by
  have hinit : ReductionInv usdInit := by
    constructor <;> simp [usdInit, ReductionInv, Option.elim]
  obtain ⟨h0, hm⟩ := reductionInv_runStates os usdInit hinit hgood s' hmem
  refine ⟨h0, ?_⟩
  rcases hs : s'.stgOrigMax with _ | m
  · simp [Option.elim]
  · rw [hs] at hm
    simp only [Option.elim] at hm ⊢
    exact hm.2

end UsdController

namespace UsdController

theorem stepState_mem_runStates (s : CtrlState) (o : IterObs) (os : List IterObs) :
    stepState (usdStep s o) ∈ usdRunStates s (o :: os) := by
  unfold usdRunStates
  rcases h : usdStep s o with s₁ | s₁ | s₁ <;> simp [stepState, h]

theorem c3_stg_reduction_bounded_witness :
    reductionWithinOriginalMax
      (stepState (usdStep usdInit ⟨100, 1000, 25, 720, 50000, 40000, 30000, 0, 0⟩)) := by
  apply c3_stg_reduction_bounded [⟨100, 1000, 25, 720, 50000, 40000, 30000, 0, 0⟩]
  · intro o ho
    simp only [List.mem_singleton] at ho
    subst ho
    exact ⟨by norm_num, by norm_num⟩
  · exact stepState_mem_runStates usdInit _ []

end UsdController

namespace PowerDispatch

/-- C7 counterexample: with three identical GT assets (min 3,600 MWh, max
15,840 MWh) at priorities 1, 2, 3 and a 20,000 MWh target, all three first
reach their 3,600 MWh minimum, but Unit 1 is then raised only to 12,800 MWh
(the point where demand is exhausted), not to its 15,840 MWh maximum as the
claim states. -/
theorem c7_counterexample :
    dispatch_once [⟨3600, 15840, 1⟩, ⟨3600, 15840, 2⟩, ⟨3600, 15840, 3⟩] 20000
      = ([[⟨3600, 12800, 15840⟩], [⟨3600, 3600, 15840⟩], [⟨3600, 3600, 15840⟩]], 0)
    ∧ (12800 : ℚ) ≠ 15840 := by
  constructor
  · norm_num [dispatch_once, sortedPriorities, sortAsc, insertAsc, groupOf, toGU,
      totalMinEnergy, dispatchGroups, dispatchGroup, countCan, groupAvailable, posHeadroom,
      addToCan, List.dedup, List.filter]
  · norm_num

/-- C7 amended: in Scenario A the engine brings all three assets to the
3,600 MWh minimum (10,800 MWh total) and then raises Unit 1 alone; at demand
20,000 Unit 1 stops at 12,800 MWh (demand exhausted before its maximum), at
demand 23,040 Unit 1 reaches its 15,840 MWh maximum with Unit 2 still at
minimum, and at demand 24,000 Unit 2 begins increasing only after Unit 1 is
at maximum — so the final allocation differs across priorities even though
the assets have identical capacities. -/
theorem c7_amended :
    dispatch_once [⟨3600, 15840, 1⟩, ⟨3600, 15840, 2⟩, ⟨3600, 15840, 3⟩] 20000
      = ([[⟨3600, 12800, 15840⟩], [⟨3600, 3600, 15840⟩], [⟨3600, 3600, 15840⟩]], 0)
    ∧ totalMinEnergy [⟨3600, 15840, 1⟩, ⟨3600, 15840, 2⟩, ⟨3600, 15840, 3⟩] = 10800
    ∧ dispatch_once [⟨3600, 15840, 1⟩, ⟨3600, 15840, 2⟩, ⟨3600, 15840, 3⟩] 23040
      = ([[⟨3600, 15840, 15840⟩], [⟨3600, 3600, 15840⟩], [⟨3600, 3600, 15840⟩]], 0)
    ∧ dispatch_once [⟨3600, 15840, 1⟩, ⟨3600, 15840, 2⟩, ⟨3600, 15840, 3⟩] 24000
      = ([[⟨3600, 15840, 15840⟩], [⟨3600, 4560, 15840⟩], [⟨3600, 3600, 15840⟩]], 0)
    ∧ ((12800 : ℚ) < 15840 ∧ (12800 : ℚ) ≠ 3600) := by
  refine ⟨?_, ?_, ?_, ?_, by norm_num, by norm_num⟩ <;>
    norm_num [dispatch_once, sortedPriorities, sortAsc, insertAsc, groupOf, toGU,
      totalMinEnergy, dispatchGroups, dispatchGroup, countCan, groupAvailable, posHeadroom,
      addToCan, List.dedup, List.filter]

end PowerDispatch

namespace HrsgDispatch

/-- C6 counterexample: the HRSG supplementary-firing dispatch does not use
the redistribution engine.  Two same-tier HRSGs with headrooms 10 and 100 MT
and 60 MT to distribute get a single equal share of 30 MT each, capped at 10
for the first; the blocked 20 MT is not redistributed to the second HRSG
(which ends at 30 of its 100 MT headroom) and the tier still reports the full
60 MT as dispatched being only 40 MT. -/
theorem c6_counterexample :
    dispatch_hrsg_load [⟨1, 0, 10⟩, ⟨1, 0, 100⟩] 60
      = ⟨60, [[10, 30]], 40, 0, true⟩
    ∧ (40 : ℚ) < 60 ∧ (30 : ℚ) < 100 := by
  refine ⟨?_, by norm_num, by norm_num⟩
  norm_num [dispatch_hrsg_load, hrsgPriorities, PowerDispatch.sortAsc, PowerDispatch.insertAsc,
    hrsgGroupOf, caseALoop, tierDispatch, headroom, List.dedup, List.filter]

end HrsgDispatch
namespace PowerDispatch

theorem add_min_headroom (a s h : ℚ) : a + min s (h - a) = min (a + s) h := by
  rcases le_total s (h - a) with hle | hle
  · rw [min_eq_left hle, min_eq_left (by linarith)]
  · rw [min_eq_right hle, min_eq_right (by linarith)]
    ring

theorem wf_zero (u : GU) (h : u.g = u.lo) : wf 0 u = u := by
  cases u with
  | mk lo g hi =>
    simp only at h
    show ({ lo := lo, g := waterfill lo hi 0, hi := hi } : GU) = ⟨lo, g, hi⟩
    simp only [GU.mk.injEq, true_and, and_true]
    rw [h]
    unfold waterfill
    split_ifs with hlt
    · rw [add_zero]
      exact min_eq_left hlt.le
    · rfl

theorem map_wf_zero (l : List GU) (h : ∀ u ∈ l, u.g = u.lo) : l.map (wf 0) = l := by
  induction l with
  | nil => rfl
  | cons u rest ih =>
    simp only [List.map_cons]
    rw [wf_zero u (h u (by simp)), ih (fun v hv => h v (by simp [hv]))]

theorem passUnit_wf (share c : ℚ) (hs : 0 ≤ share) (u : GU) :
    passUnit share (wf c u) = wf (c + share) u := by
  cases u with
  | mk lo g hi =>
    show (if waterfill lo hi c < hi then
        ({ lo := lo, g := waterfill lo hi c + min share (hi - waterfill lo hi c), hi := hi } : GU)
        else { lo := lo, g := waterfill lo hi c, hi := hi })
      = { lo := lo, g := waterfill lo hi (c + share), hi := hi }
    split_ifs with h
    · simp only [GU.mk.injEq, true_and, and_true]
      unfold waterfill at h ⊢
      by_cases hlo : lo < hi
      · simp only [hlo, if_true] at h ⊢
        have hcap : lo + c < hi := by
          by_contra hcon
          rw [min_eq_right (not_lt.mp hcon)] at h
          exact lt_irrefl hi h
        rw [min_eq_left hcap.le, add_min_headroom]
        congr 1
        ring
      · simp only [hlo, if_false] at h
    · simp only [GU.mk.injEq, true_and, and_true]
      unfold waterfill at h ⊢
      by_cases hlo : lo < hi
      · simp only [hlo, if_true] at h ⊢
        have hmin : min (lo + c) hi = hi := le_antisymm (min_le_right _ _) (not_lt.mp h)
        have h2 : hi ≤ lo + c := hmin ▸ min_le_left _ _
        rw [hmin, min_eq_right (by linarith : hi ≤ lo + (c + share))]
      · simp only [hlo, if_false]

end PowerDispatch

namespace PowerDispatch

theorem countCan_cons (u : GU) (l : List GU) :
    countCan (u :: l) = (if u.g < u.hi then 1 else 0) + countCan l := by
  by_cases h : u.g < u.hi <;> simp [countCan, List.filter_cons, h] <;> omega

theorem passTaken_nonneg (share : ℚ) (hs : 0 ≤ share) (u : GU) : 0 ≤ passTaken share u := by
  unfold passTaken
  split_ifs with h
  · exact le_min hs (by linarith)
  · exact le_refl 0

theorem taken_nonneg (share : ℚ) (hs : 0 ≤ share) (l : List GU) :
    0 ≤ (l.map (passTaken share)).sum := by
  induction l with
  | nil => simp
  | cons u rest ih =>
    simp only [List.map_cons, List.sum_cons]
    have := passTaken_nonneg share hs u
    linarith

theorem taken_le (share : ℚ) (hs : 0 ≤ share) (l : List GU) :
    (l.map (passTaken share)).sum ≤ (countCan l : ℚ) * share := by
  induction l with
  | nil => simp [countCan]
  | cons u rest ih =>
    rw [countCan_cons]
    simp only [List.map_cons, List.sum_cons]
    by_cases h : u.g < u.hi
    · rw [if_pos h]
      have hu : passTaken share u ≤ share := by
        simpa [passTaken, h] using min_le_left share (u.hi - u.g)
      push_cast
      have hexp : ((1 : ℚ) + (countCan rest : ℚ)) * share
          = share + (countCan rest : ℚ) * share := by ring
      linarith
    · rw [if_neg h]
      have hu : passTaken share u = 0 := by simp [passTaken, h]
      rw [hu]
      push_cast
      linarith

theorem passUnit_g (share : ℚ) (u : GU) :
    (passUnit share u).g = u.g + passTaken share u := by
  unfold passUnit passTaken
  split_ifs with h <;> simp

theorem sumG_pass (share : ℚ) (l : List GU) :
    ((l.map (passUnit share)).map (·.g)).sum
      = (l.map (·.g)).sum + (l.map (passTaken share)).sum := by
  induction l with
  | nil => simp
  | cons u rest ih =>
    simp only [List.map_cons, List.sum_cons]
    rw [passUnit_g, ih]
    ring

theorem innerLoop_temp (fuel : ℕ) :
    ∀ (temp : ℚ) (l : List GU), 0 ≤ temp →
    0 ≤ (innerLoop fuel temp l).1 ∧ (innerLoop fuel temp l).1 ≤ temp ∧
    ((innerLoop fuel temp l).2.map (·.g)).sum
      = (l.map (·.g)).sum + (temp - (innerLoop fuel temp l).1) := by
  induction fuel with
  | zero =>
    intro temp l h
    exact ⟨h, le_refl _, by simp [innerLoop]⟩
  | succ n ih =>
    intro temp l h
    unfold innerLoop
    split_ifs with h1 h2
    · exact ⟨h, le_refl _, by simp⟩
    · have hn : (0:ℚ) < (countCan l : ℚ) :=
        Nat.cast_pos.mpr (Nat.pos_of_ne_zero h2)
      have hsh : 0 ≤ temp / (countCan l : ℚ) := by positivity
      have htk0 := taken_nonneg _ hsh l
      have htkle := taken_le _ hsh l
      have hmul : (countCan l : ℚ) * (temp / (countCan l : ℚ)) = temp := by
        field_simp
      have htemp1 : 0 ≤ temp - (l.map (passTaken (temp / (countCan l : ℚ)))).sum := by
        linarith
      obtain ⟨a, b, cEq⟩ := ih _ _ htemp1
      refine ⟨a, by linarith, ?_⟩
      rw [cEq, sumG_pass]
      ring
    · exact ⟨h, le_refl _, by simp⟩

end PowerDispatch

namespace PowerDispatch

theorem passUnit_noncan (share : ℚ) (u : GU) (h : ¬ u.g < u.hi) :
    passUnit share u = u := by
  unfold passUnit
  exact if_neg h

theorem countCan_map_le (share : ℚ) (hs : 0 ≤ share) (l : List GU) :
    countCan (l.map (passUnit share)) ≤ countCan l := by
  induction l with
  | nil => simp [countCan]
  | cons u rest ih =>
    simp only [List.map_cons]
    rw [countCan_cons, countCan_cons]
    by_cases h : u.g < u.hi
    · rw [if_pos h]
      by_cases h' : (passUnit share u).g < (passUnit share u).hi
      · rw [if_pos h']; omega
      · rw [if_neg h']; omega
    · rw [passUnit_noncan share u h, if_neg h]
      omega

theorem countCan_map_lt (share : ℚ) (hs : 0 ≤ share) (l : List GU) (u : GU)
    (hu : u ∈ l) (hcan : u.g < u.hi) (hcap : u.hi - u.g ≤ share) :
    countCan (l.map (passUnit share)) < countCan l := by
  induction l with
  | nil => cases hu
  | cons v rest ih =>
    simp only [List.map_cons]
    rw [countCan_cons, countCan_cons]
    rcases List.mem_cons.mp hu with h | h
    · subst h
      rw [if_pos hcan]
      have hcapped : ¬ (passUnit share u).g < (passUnit share u).hi := by
        unfold passUnit
        rw [if_pos hcan]
        simp only
        rw [min_eq_right hcap]
        simp
      rw [if_neg hcapped]
      have := countCan_map_le share hs rest
      omega
    · have hrest := ih h
      by_cases hv : v.g < v.hi
      · rw [if_pos hv]
        by_cases hv' : (passUnit share v).g < (passUnit share v).hi
        · rw [if_pos hv']; omega
        · rw [if_neg hv']; omega
      · rw [passUnit_noncan share v hv, if_neg hv]
        omega

theorem taken_eq_of_no_cap (share : ℚ) (l : List GU)
    (h : ∀ u ∈ l, u.g < u.hi → share < u.hi - u.g) :
    (l.map (passTaken share)).sum = (countCan l : ℚ) * share := by
  induction l with
  | nil => simp [countCan]
  | cons u rest ih =>
    rw [countCan_cons]
    simp only [List.map_cons, List.sum_cons]
    have hrest := ih (fun v hv hcan => h v (by simp [hv]) hcan)
    by_cases hc : u.g < u.hi
    · rw [if_pos hc]
      have : passTaken share u = share := by
        simp [passTaken, hc, min_eq_left (h u (by simp) hc).le]
      rw [this, hrest]
      push_cast
      ring
    · rw [if_neg hc]
      have : passTaken share u = 0 := by simp [passTaken, hc]
      rw [this, hrest]
      push_cast
      ring

theorem innerLoop_exit (fuel : ℕ) :
    ∀ (temp : ℚ) (l : List GU), 0 ≤ temp → countCan l + 1 ≤ fuel →
    (innerLoop fuel temp l).1 ≤ (0.1 : ℚ) ∨ countCan (innerLoop fuel temp l).2 = 0 := by
  induction fuel with
  | zero => intro temp l _ hf; omega
  | succ n ih =>
    intro temp l h hf
    unfold innerLoop
    split_ifs with h1 h2
    · right
      exact h2
    · have hn : (0:ℚ) < (countCan l : ℚ) :=
        Nat.cast_pos.mpr (Nat.pos_of_ne_zero h2)
      have hsh : 0 ≤ temp / (countCan l : ℚ) := by positivity
      by_cases hcap : ∃ u ∈ l, u.g < u.hi ∧ u.hi - u.g ≤ temp / (countCan l : ℚ)
      · obtain ⟨u, hu, hucan, hule⟩ := hcap
        have hlt := countCan_map_lt _ hsh l u hu hucan hule
        have htk0 := taken_nonneg _ hsh l
        have htkle := taken_le _ hsh l
        have hmul : (countCan l : ℚ) * (temp / (countCan l : ℚ)) = temp := by field_simp
        exact ih _ _ (by linarith) (by omega)
      · push_neg at hcap
        have htaken := taken_eq_of_no_cap (temp / (countCan l : ℚ)) l
          (fun u hu hucan => hcap u hu hucan)
        have hmul : (countCan l : ℚ) * (temp / (countCan l : ℚ)) = temp := by field_simp
        have hzero : temp - (l.map (passTaken (temp / (countCan l : ℚ)))).sum = 0 := by
          rw [htaken, hmul]
          ring
        rw [hzero]
        rcases n with _ | n'
        · have : countCan l = 0 := by omega
          exact absurd this h2
        · left
          unfold innerLoop
          rw [if_neg (by norm_num : ¬ ((0:ℚ) > 0.1))]
          norm_num
    · left
      exact le_of_not_lt h1

theorem innerLoop_wf (fuel : ℕ) :
    ∀ (temp c : ℚ) (l : List GU), 0 ≤ c →
    ∃ c', c ≤ c' ∧ (innerLoop fuel temp (l.map (wf c))).2 = l.map (wf c') := by
  induction fuel with
  | zero => intro temp c l hc; exact ⟨c, le_refl c, by simp [innerLoop]⟩
  | succ n ih =>
    intro temp c l hc
    unfold innerLoop
    split_ifs with h1 h2
    · exact ⟨c, le_refl c, rfl⟩
    · have hn : (0:ℚ) < (countCan (l.map (wf c)) : ℚ) :=
        Nat.cast_pos.mpr (Nat.pos_of_ne_zero h2)
      have hsh : 0 ≤ temp / (countCan (l.map (wf c)) : ℚ) := by positivity
      have hmap : (l.map (wf c)).map (passUnit (temp / (countCan (l.map (wf c)) : ℚ)))
          = l.map (wf (c + temp / (countCan (l.map (wf c)) : ℚ))) := by
        rw [List.map_map]
        exact List.map_congr_left (fun u _ => passUnit_wf _ c hsh u)
      rw [hmap]
      obtain ⟨c', hc', heq⟩ := ih
        (temp - ((l.map (wf c)).map (passTaken (temp / (countCan (l.map (wf c)) : ℚ)))).sum)
        (c + temp / (countCan (l.map (wf c)) : ℚ)) l (add_nonneg hc hsh)
      exact ⟨c', by linarith, heq⟩
    · exact ⟨c, le_refl c, rfl⟩

end PowerDispatch

namespace PowerDispatch

theorem groupAvailable_cons (u : GU) (l : List GU) :
    groupAvailable (u :: l) = posHeadroom u + groupAvailable l := by
  simp [groupAvailable]

theorem posHeadroom_nonneg (u : GU) : 0 ≤ posHeadroom u := le_max_right _ _

theorem groupAvailable_nonneg (l : List GU) : 0 ≤ groupAvailable l := by
  induction l with
  | nil => simp [groupAvailable]
  | cons u rest ih =>
    rw [groupAvailable_cons]
    have := posHeadroom_nonneg u
    linarith

theorem countCan_eq_zero (l : List GU) :
    countCan l = 0 ↔ ∀ u ∈ l, ¬ u.g < u.hi := by
  simp [countCan, List.length_eq_zero, List.filter_eq_nil]

theorem countCan_zero_groupAvailable (l : List GU) (h : countCan l = 0) :
    groupAvailable l = 0 := by
  induction l with
  | nil => simp [groupAvailable]
  | cons u rest ih =>
    rw [countCan_cons] at h
    by_cases hc : u.g < u.hi
    · rw [if_pos hc] at h; omega
    · rw [if_neg hc] at h
      rw [groupAvailable_cons, ih (by omega)]
      have : u.hi - u.g ≤ 0 := by linarith [not_lt.mp hc]
      rw [posHeadroom, max_eq_right this]
      ring

theorem wf_of_noncan (c : ℚ) (v : GU) (hv : v.g = v.lo) (h : ¬ v.g < v.hi) :
    wf c v = v := by
  cases v with
  | mk lo g hi =>
    simp only at hv h
    subst hv
    show ({ lo := g, g := waterfill g hi c, hi := hi } : GU) = ⟨g, g, hi⟩
    simp only [GU.mk.injEq, true_and, and_true]
    unfold waterfill
    rw [if_neg h]

theorem map_wf_of_countCan_zero (c : ℚ) (l : List GU) (hg : ∀ u ∈ l, u.g = u.lo)
    (h : countCan l = 0) : l.map (wf c) = l := by
  have hall := (countCan_eq_zero l).mp h
  induction l with
  | nil => rfl
  | cons u rest ih =>
    simp only [List.map_cons]
    rw [wf_of_noncan c u (hg u (by simp)) (hall u (by simp))]
    rw [ih (fun v hv => hg v (by simp [hv])) ((countCan_eq_zero rest).mpr
      (fun v hv => hall v (by simp [hv]))) (fun v hv => hall v (by simp [hv]))]

theorem addToCan_sum (amt : ℚ) (l : List GU) (h : countCan l ≠ 0) :
    ((addToCan amt l).map (·.g)).sum = (l.map (·.g)).sum + amt := by
  induction l with
  | nil => simp [countCan] at h
  | cons u rest ih =>
    by_cases hc : u.g < u.hi
    · simp only [addToCan, if_pos hc, List.map_cons, List.sum_cons]
      ring
    · simp only [addToCan, if_neg hc, List.map_cons, List.sum_cons]
      rw [countCan_cons, if_neg hc] at h
      rw [ih (by omega)]
      ring

theorem addToCan_wf (amt : ℚ) (l : List GU) (hg : ∀ u ∈ l, u.g = u.lo)
    (h1 : countCan l = 1) (hamt : 0 ≤ amt) (hle : amt ≤ groupAvailable l) :
    addToCan amt l = l.map (wf amt) := by
  induction l with
  | nil => simp [countCan] at h1
  | cons u rest ih =>
    have hgu : u.g = u.lo := hg u (by simp)
    by_cases hc : u.g < u.hi
    · have hrest0 : countCan rest = 0 := by
        rw [countCan_cons, if_pos hc] at h1; omega
      have hga : groupAvailable (u :: rest) = u.hi - u.g := by
        rw [groupAvailable_cons, countCan_zero_groupAvailable rest hrest0,
          posHeadroom, max_eq_left (by linarith [hc])]
        ring
      have hlt : u.lo < u.hi := hgu ▸ hc
      have hamtle : amt ≤ u.hi - u.lo := by
        rw [← hgu]
        linarith [hle, hga.symm.le]
      have hhead : ({ u with g := u.g + amt } : GU) = wf amt u := by
        cases u with
        | mk lo g hi =>
          simp only at hgu hamtle hlt
          show ({ lo := lo, g := g + amt, hi := hi } : GU)
            = { lo := lo, g := waterfill lo hi amt, hi := hi }
          simp only [GU.mk.injEq, true_and, and_true]
          unfold waterfill
          rw [if_pos hlt, min_eq_left (by subst hgu; linarith), hgu]
      simp only [addToCan, if_pos hc, List.map_cons]
      rw [hhead, map_wf_of_countCan_zero amt rest
        (fun v hv => hg v (by simp [hv])) hrest0]
    · have h1' : countCan rest = 1 := by
        rw [countCan_cons, if_neg hc] at h1; omega
      have hle' : amt ≤ groupAvailable rest := by
        have : posHeadroom u = 0 := by
          rw [posHeadroom, max_eq_right (by linarith [not_lt.mp hc])]
        rw [groupAvailable_cons, this] at hle
        linarith
      simp only [addToCan, if_neg hc, List.map_cons]
      rw [wf_of_noncan amt u hgu hc,
        ih (fun v hv => hg v (by simp [hv])) h1' hle']

end PowerDispatch

namespace PowerDispatch

theorem wf_g_of_cap (c : ℚ) (u : GU) (hgu : u.g = u.lo)
    (hu : ¬ (wf c u).g < (wf c u).hi) : (wf c u).g = u.g + posHeadroom u := by
  cases u with
  | mk lo g hi =>
    have hgl : g = lo := hgu
    subst hgl
    have hu' : ¬ waterfill g hi c < hi := hu
    show waterfill g hi c = g + max (hi - g) 0
    unfold waterfill at hu' ⊢
    by_cases hlt : g < hi
    · rw [if_pos hlt] at hu' ⊢
      have hmin : min (g + c) hi = hi :=
        le_antisymm (min_le_right _ _) (not_lt.mp hu')
      rw [hmin, max_eq_left (by linarith : (0:ℚ) ≤ hi - g)]
      ring
    · rw [if_neg hlt] at hu' ⊢
      rw [max_eq_right (by linarith [not_lt.mp hlt] : hi - g ≤ (0:ℚ))]
      ring

theorem sumG_wf_of_allcap (c : ℚ) (grp : List GU) (hg : ∀ u ∈ grp, u.g = u.lo)
    (hall : countCan (grp.map (wf c)) = 0) :
    ((grp.map (wf c)).map (·.g)).sum = (grp.map (·.g)).sum + groupAvailable grp := by
  induction grp with
  | nil => simp [groupAvailable]
  | cons u rest ih =>
    have hallP := (countCan_eq_zero _).mp hall
    have hu : ¬ (wf c u).g < (wf c u).hi :=
      hallP (wf c u) (by simp only [List.map_cons]; exact List.mem_cons_self _ _)
    have hrest : countCan (List.map (wf c) rest) = 0 := by
      rw [countCan_eq_zero]
      intro v hv
      exact hallP v (by simp only [List.map_cons]; exact List.mem_cons_of_mem _ hv)
    simp only [List.map_cons, List.sum_cons]
    rw [groupAvailable_cons, ih (fun v hv => hg v (by simp [hv])) hrest,
      wf_g_of_cap c u (hg u (by simp)) hu]
    ring

theorem dispatchGroup_wf (r : ℚ) (grp : List GU) (hg : ∀ u ∈ grp, u.g = u.lo) :
    ∃ c, 0 ≤ c ∧ (dispatchGroup r grp).1 = grp.map (wf c) := by
  unfold dispatchGroup
  split_ifs with h1 h2 h3
  · exact ⟨0, le_refl 0, (map_wf_zero grp hg).symm⟩
  · exact ⟨0, le_refl 0, (map_wf_zero grp hg).symm⟩
  · have hr : 0 < r := not_le.mp h1
    have hga := groupAvailable_nonneg grp
    have hma : 0 ≤ min r (groupAvailable grp) := le_min hr.le hga
    exact ⟨min r (groupAvailable grp), hma,
      addToCan_wf _ grp hg h3 hma (min_le_right _ _)⟩
  · obtain ⟨c', hc', heq⟩ := innerLoop_wf (countCan grp + 1)
      (min r (groupAvailable grp)) 0 grp (le_refl 0)
    rw [map_wf_zero grp hg] at heq
    exact ⟨c', hc', heq⟩

theorem dispatchGroup_conserve (r : ℚ) (grp : List GU) (hr : 0 ≤ r) :
    ((dispatchGroup r grp).1.map (·.g)).sum
      = (grp.map (·.g)).sum + (r - (dispatchGroup r grp).2) := by
  unfold dispatchGroup
  split_ifs with h1 h2 h3
  · dsimp only
    ring
  · dsimp only
    ring
  · dsimp only
    rw [addToCan_sum _ grp (by omega)]
    ring
  · dsimp only
    have hr0 : 0 < r := not_le.mp h1
    have hma : 0 ≤ min r (groupAvailable grp) :=
      le_min hr0.le (groupAvailable_nonneg grp)
    obtain ⟨ht0, htle, hsum⟩ := innerLoop_temp (countCan grp + 1)
      (min r (groupAvailable grp)) grp hma
    rw [hsum]
    ring

theorem dispatchGroup_bound (r : ℚ) (grp : List GU) (hr : 0 ≤ r)
    (hg : ∀ u ∈ grp, u.g = u.lo) :
    0 ≤ (dispatchGroup r grp).2 ∧ (dispatchGroup r grp).2 ≤ r ∧
    (dispatchGroup r grp).2 ≤ max (r - groupAvailable grp) 0 + (0.1 : ℚ) := by
  unfold dispatchGroup
  split_ifs with h1 h2 h3
  · dsimp only
    refine ⟨hr, le_refl r, ?_⟩
    have hm := le_max_right (r - groupAvailable grp) (0:ℚ)
    linarith
  · dsimp only
    have hga0 := countCan_zero_groupAvailable grp h2
    refine ⟨hr, le_refl r, ?_⟩
    rw [hga0]
    have hmx : max (r - 0) 0 = r := by rw [sub_zero, max_eq_left hr]
    linarith
  · dsimp only
    have hr0 : 0 < r := not_le.mp h1
    have hga := groupAvailable_nonneg grp
    refine ⟨by linarith [min_le_left r (groupAvailable grp)],
      by linarith [le_min hr0.le hga], ?_⟩
    rcases le_total r (groupAvailable grp) with hle | hle
    · rw [min_eq_left hle]
      have hmx : max (r - groupAvailable grp) 0 = 0 := max_eq_right (by linarith)
      linarith
    · rw [min_eq_right hle]
      have hmx : max (r - groupAvailable grp) 0 = r - groupAvailable grp :=
        max_eq_left (by linarith)
      linarith
  · dsimp only
    have hr0 : 0 < r := not_le.mp h1
    have hga := groupAvailable_nonneg grp
    have hma : 0 ≤ min r (groupAvailable grp) := le_min hr0.le hga
    obtain ⟨ht0, htle, hsum⟩ := innerLoop_temp (countCan grp + 1)
      (min r (groupAvailable grp)) grp hma
    have hminr := min_le_left r (groupAvailable grp)
    have hminga := min_le_right r (groupAvailable grp)
    refine ⟨by linarith, by linarith, ?_⟩
    have hexit := innerLoop_exit (countCan grp + 1)
      (min r (groupAvailable grp)) grp hma (le_refl _)
    have htlim : (innerLoop (countCan grp + 1) (min r (groupAvailable grp)) grp).1
        ≤ (0.1 : ℚ) := by
      rcases hexit with h | h
      · exact h
      · obtain ⟨c', hc', heq⟩ := innerLoop_wf (countCan grp + 1)
          (min r (groupAvailable grp)) 0 grp (le_refl 0)
        rw [map_wf_zero grp hg] at heq
        rw [heq] at h hsum
        rw [sumG_wf_of_allcap c' grp hg h] at hsum
        have heqt : (innerLoop (countCan grp + 1) (min r (groupAvailable grp)) grp).1
            = min r (groupAvailable grp) - groupAvailable grp := by linarith
        rw [heqt]
        linarith
    rcases le_total r (groupAvailable grp) with hle | hle
    · rw [min_eq_left hle] at htlim ⊢
      linarith [le_max_right (r - groupAvailable grp) (0:ℚ)]
    · rw [min_eq_right hle] at htlim ⊢
      linarith [le_max_left (r - groupAvailable grp) (0:ℚ)]

end PowerDispatch

namespace PowerDispatch

theorem totalGross_cons (g : List GU) (gs : List (List GU)) :
    totalGross (g :: gs) = (g.map (·.g)).sum + totalGross gs := by
  simp [totalGross]

theorem dispatchGroups_wf (gs : List (List GU)) :
    ∀ r : ℚ, (∀ grp ∈ gs, ∀ u ∈ grp, u.g = u.lo) →
    ∀ grp' ∈ (dispatchGroups r gs).1,
      ∃ grp, grp ∈ gs ∧ ∃ c, 0 ≤ c ∧ grp' = grp.map (wf c) := by
  induction gs with
  | nil => intro r _ grp' h; simp [dispatchGroups] at h
  | cons grp rest ih =>
    intro r hg grp' h
    simp only [dispatchGroups, List.mem_cons] at h
    rcases h with h | h
    · obtain ⟨c, hc, heq⟩ := dispatchGroup_wf r grp (hg grp (by simp))
      exact ⟨grp, by simp, c, hc, by rw [h]; exact heq⟩
    · obtain ⟨g0, hg0, c, hc, heq⟩ := ih (dispatchGroup r grp).2
        (fun g hgm u hu => hg g (by simp [hgm]) u hu) grp' h
      exact ⟨g0, by simp [hg0], c, hc, heq⟩

theorem dispatchGroups_bound (gs : List (List GU)) :
    ∀ r : ℚ, 0 ≤ r → (∀ grp ∈ gs, ∀ u ∈ grp, u.g = u.lo) →
    0 ≤ (dispatchGroups r gs).2 ∧
    (dispatchGroups r gs).2
      ≤ max (r - (gs.map groupAvailable).sum) 0 + (0.1 : ℚ) * gs.length ∧
    totalGross (dispatchGroups r gs).1
      = totalGross gs + (r - (dispatchGroups r gs).2) := by
  induction gs with
  | nil =>
    intro r hr _
    refine ⟨hr, ?_, by simp [dispatchGroups, totalGross]⟩
    simp only [dispatchGroups, List.map_nil, List.sum_nil, List.length_nil]
    rw [sub_zero]
    push_cast
    rw [max_eq_left hr]
    linarith
  | cons grp rest ih =>
    intro r hr hg
    have hsrest : 0 ≤ (rest.map groupAvailable).sum :=
      List.sum_nonneg (by
        intro x hx
        obtain ⟨g, _, hgx⟩ := List.mem_map.mp hx
        exact hgx ▸ groupAvailable_nonneg g)
    obtain ⟨hb0, hb1, hb2⟩ := dispatchGroup_bound r grp hr (hg grp (by simp))
    have hcons := dispatchGroup_conserve r grp hr
    obtain ⟨hi0, hi1, hi2⟩ := ih (dispatchGroup r grp).2 hb0
      (fun g hgm u hu => hg g (by simp [hgm]) u hu)
    simp only [dispatchGroups, List.map_cons, List.sum_cons, List.length_cons]
    refine ⟨hi0, ?_, ?_⟩
    · have hstep : max ((dispatchGroup r grp).2 - (rest.map groupAvailable).sum) 0
          ≤ max (r - (groupAvailable grp + (rest.map groupAvailable).sum)) 0
            + (0.1 : ℚ) := by
        rcases max_cases ((dispatchGroup r grp).2 - (rest.map groupAvailable).sum) (0:ℚ)
          with ⟨hm, _⟩ | ⟨hm, _⟩
        · rw [hm]
          rcases max_cases (r - groupAvailable grp) (0:ℚ) with ⟨hm2, hc2⟩ | ⟨hm2, hc2⟩
          · rw [hm2] at hb2
            have := le_max_left (r - (groupAvailable grp + (rest.map groupAvailable).sum)) (0:ℚ)
            linarith
          · rw [hm2] at hb2
            have := le_max_right (r - (groupAvailable grp + (rest.map groupAvailable).sum)) (0:ℚ)
            linarith
        · rw [hm]
          have := le_max_right (r - (groupAvailable grp + (rest.map groupAvailable).sum)) (0:ℚ)
          linarith
      push_cast
      push_cast at hi1
      linarith
    · rw [totalGross_cons, totalGross_cons, hi2, hcons]
      ring

end PowerDispatch

namespace PowerDispatch

theorem filterSum_cons_mem (f : AUnit → ℚ) (u : AUnit) (rest : List AUnit) (P : List ℚ)
    (hnd : P.Nodup) :
    (P.map (fun p => (((u :: rest).filter (fun v => decide (v.priority = p))).map f).sum)).sum
      = (if u.priority ∈ P then f u else 0)
        + (P.map (fun p => ((rest.filter (fun v => decide (v.priority = p))).map f).sum)).sum := by
  induction P with
  | nil => simp
  | cons p P' ih =>
    have hp' : p ∉ P' := (List.nodup_cons.mp hnd).1
    have hnd' : P'.Nodup := (List.nodup_cons.mp hnd).2
    simp only [List.map_cons, List.sum_cons, ih hnd']
    by_cases hup : u.priority = p
    · have hnotP' : u.priority ∉ P' := hup ▸ hp'
      rw [List.filter_cons, if_pos (by simp [hup]), if_neg hnotP']
      simp only [List.map_cons, List.sum_cons]
      rw [if_pos (by simp [hup])]
      ring
    · rw [List.filter_cons, if_neg (by simp [hup])]
      by_cases hP' : u.priority ∈ P'
      · rw [if_pos hP', if_pos (by simp [hP'])]
        ring
      · rw [if_neg hP', if_neg (by simp [hup, hP'])]
        ring

theorem partition_sum (f : AUnit → ℚ) (P : List ℚ) (hnd : P.Nodup) :
    ∀ us : List AUnit, (∀ u ∈ us, u.priority ∈ P) →
    (P.map (fun p => ((us.filter (fun v => decide (v.priority = p))).map f).sum)).sum
      = (us.map f).sum := by
  intro us
  induction us with
  | nil => intro _; simp
  | cons u rest ih =>
    intro hmem
    rw [filterSum_cons_mem f u rest P hnd, if_pos (hmem u (by simp)),
      ih (fun v hv => hmem v (by simp [hv]))]
    simp

theorem insertAsc_perm (x : ℚ) (l : List ℚ) : (insertAsc x l).Perm (x :: l) := by
  induction l with
  | nil => exact List.Perm.refl _
  | cons y ys ih =>
    unfold insertAsc
    split_ifs with h
    · exact List.Perm.refl _
    · exact (ih.cons y).trans (List.Perm.swap x y ys)

theorem sortAsc_perm (l : List ℚ) : (sortAsc l).Perm l := by
  induction l with
  | nil => exact List.Perm.refl _
  | cons x xs ih =>
    exact (insertAsc_perm x (List.foldr insertAsc [] xs)).trans (ih.cons x)

theorem sortedPriorities_nodup (units : List AUnit) : (sortedPriorities units).Nodup :=
  (sortAsc_perm _).nodup_iff.mpr (List.nodup_dedup _)

theorem mem_sortedPriorities (units : List AUnit) (u : AUnit) (hu : u ∈ units) :
    u.priority ∈ sortedPriorities units :=
  (sortAsc_perm _).mem_iff.mpr (List.mem_dedup.mpr (List.mem_map_of_mem _ hu))

end PowerDispatch

namespace PowerDispatch

theorem waterfill_mem (lo hi c : ℚ) (hlh : lo ≤ hi) (hc : 0 ≤ c) :
    lo ≤ waterfill lo hi c ∧ waterfill lo hi c ≤ hi := by
  unfold waterfill
  split_ifs with h
  · exact ⟨le_min (by linarith) h.le, min_le_right _ _⟩
  · exact ⟨le_refl _, hlh⟩

theorem waterfill_zero (lo hi : ℚ) : waterfill lo hi 0 = lo := by
  unfold waterfill
  split_ifs with h
  · rw [add_zero]
    exact min_eq_left h.le
  · rfl

theorem sumG_toGU (l : List AUnit) :
    ((l.map toGU).map (·.g)).sum = (l.map (·.minEnergy)).sum := by
  induction l with
  | nil => rfl
  | cons u rest ih => simp only [List.map_cons, List.sum_cons, ih, toGU]

theorem groupAvailable_toGU (l : List AUnit) (h : ∀ u ∈ l, u.minEnergy ≤ u.maxEnergy) :
    groupAvailable (l.map toGU)
      = (l.map (fun u => u.maxEnergy - u.minEnergy)).sum := by
  induction l with
  | nil => rfl
  | cons u rest ih =>
    simp only [List.map_cons]
    rw [groupAvailable_cons, ih (fun v hv => h v (by simp [hv]))]
    have : posHeadroom (toGU u) = u.maxEnergy - u.minEnergy := by
      unfold posHeadroom toGU
      exact max_eq_left (by linarith [h u (by simp)])
    rw [this, List.sum_cons]

theorem sum_energy_sub (l : List AUnit) :
    (l.map (fun u => u.maxEnergy - u.minEnergy)).sum
      = totalMaxEnergy l - totalMinEnergy l := by
  unfold totalMaxEnergy totalMinEnergy
  induction l with
  | nil => simp
  | cons u rest ih =>
    simp only [List.map_cons, List.sum_cons, ih]
    ring

theorem groupOf_mem (units : List AUnit) (p : ℚ) (v : AUnit) (hv : v ∈ groupOf units p) :
    v ∈ units ∧ v.priority = p := by
  unfold groupOf at hv
  have := List.mem_filter.mp hv
  exact ⟨this.1, of_decide_eq_true this.2⟩

theorem toGU_min (units : List AUnit) :
    totalGross ((sortedPriorities units).map (fun p => (groupOf units p).map toGU))
      = totalMinEnergy units := by
  have h1 : ∀ P : List ℚ,
      totalGross (P.map (fun p => (groupOf units p).map toGU))
        = (P.map (fun p => ((groupOf units p).map (·.minEnergy)).sum)).sum := by
    intro P
    induction P with
    | nil => rfl
    | cons p P' ih =>
      simp only [List.map_cons, List.sum_cons]
      rw [totalGross_cons, ih, sumG_toGU]
  rw [h1]
  simp only [groupOf]
  rw [partition_sum (·.minEnergy) (sortedPriorities units) (sortedPriorities_nodup units)
    units (fun u hu => mem_sortedPriorities units u hu)]
  rfl

theorem groups_available_sum (units : List AUnit)
    (hmm : ∀ u ∈ units, u.minEnergy ≤ u.maxEnergy) :
    (((sortedPriorities units).map (fun p => (groupOf units p).map toGU)).map
        groupAvailable).sum
      = totalMaxEnergy units - totalMinEnergy units := by
  have h1 : ∀ P : List ℚ,
      ((P.map (fun p => (groupOf units p).map toGU)).map groupAvailable).sum
        = (P.map (fun p =>
            ((groupOf units p).map (fun u => u.maxEnergy - u.minEnergy)).sum)).sum := by
    intro P
    induction P with
    | nil => rfl
    | cons p P' ih =>
      simp only [List.map_cons, List.sum_cons]
      rw [ih, groupAvailable_toGU _ (fun v hv => hmm v (groupOf_mem units p v hv).1)]
  rw [h1]
  simp only [groupOf]
  rw [partition_sum (fun u => u.maxEnergy - u.minEnergy) (sortedPriorities units)
    (sortedPriorities_nodup units) units (fun u hu => mem_sortedPriorities units u hu)]
  exact sum_energy_sub units

theorem toGU_minset (units : List AUnit) :
    ∀ grp ∈ (sortedPriorities units).map (fun p => (groupOf units p).map toGU),
      ∀ u ∈ grp, u.g = u.lo := by
  intro grp hgrp u hu
  obtain ⟨p, _, hpe⟩ := List.mem_map.mp hgrp
  obtain ⟨v, _, hve⟩ := List.mem_map.mp (hpe ▸ hu)
  rw [← hve]
  rfl

end PowerDispatch

namespace PowerDispatch

/-- C1: for every asset set with `minEnergy ≤ maxEnergy` and every demand
`≤ Σ maxEnergy`, `_dispatch_once` keeps each asset's allocation inside
`[minEnergy, maxEnergy]`, the total dispatched is at least
`min demand (Σ maxEnergy)` within the loop tolerance (0.1 MWh per priority
group), the reported shortfall is `max 0 (demand - totalGross)`, and when
demand is below the total minimum every asset stays exactly at minimum. -/
theorem c1_priority_dispatch_engine (units : List AUnit) (demand : ℚ)
    (hmm : ∀ u ∈ units, u.minEnergy ≤ u.maxEnergy)
    (hd : demand ≤ totalMaxEnergy units) :
    (∀ grp ∈ (dispatch_once units demand).1, ∀ u ∈ grp, u.lo ≤ u.g ∧ u.g ≤ u.hi)
    ∧ min demand (totalMaxEnergy units)
        - (0.1 : ℚ) * (sortedPriorities units).length
        ≤ totalGross (dispatch_once units demand).1
    ∧ (dispatch_once units demand).2
        = max 0 (demand - totalGross (dispatch_once units demand).1)
    ∧ (demand < totalMinEnergy units →
        ∀ grp ∈ (dispatch_once units demand).1, ∀ u ∈ grp, u.g = u.lo) := by
  have hshort : (dispatch_once units demand).2
      = max 0 (demand - totalGross (dispatch_once units demand).1) := rfl
  have hmin := toGU_min units
  have hga := groups_available_sum units hmm
  have hminset := toGU_minset units
  by_cases hrem : demand - totalMinEnergy units > 0
  · have h1 : (dispatch_once units demand).1
        = (dispatchGroups (demand - totalMinEnergy units)
            ((sortedPriorities units).map (fun p => (groupOf units p).map toGU))).1 := by
      simp only [dispatch_once]
      rw [if_pos hrem]
    obtain ⟨hb0, hb1, hb2⟩ := dispatchGroups_bound
      ((sortedPriorities units).map (fun p => (groupOf units p).map toGU))
      (demand - totalMinEnergy units) (by linarith) hminset
    refine ⟨?_, ?_, hshort, ?_⟩
    · intro grp hgrp u hu
      rw [h1] at hgrp
      obtain ⟨grp0, hg0, c, hc, heq⟩ := dispatchGroups_wf _ _ hminset grp hgrp
      obtain ⟨p, hpP, hpe⟩ := List.mem_map.mp hg0
      rw [heq] at hu
      obtain ⟨u0, hu0, hue⟩ := List.mem_map.mp hu
      rw [← hpe] at hu0
      obtain ⟨v, hv, hve⟩ := List.mem_map.mp hu0
      have hvb := hmm v (groupOf_mem units p v hv).1
      rw [← hue, ← hve]
      have hw := waterfill_mem v.minEnergy v.maxEnergy c hvb hc
      exact ⟨hw.1, hw.2⟩
    · rw [h1, hb2, hmin]
      rw [List.length_map] at hb1
      rw [hga] at hb1
      have hmax0 : max (demand - totalMinEnergy units
          - (totalMaxEnergy units - totalMinEnergy units)) 0 = 0 :=
        max_eq_right (by linarith)
      rw [hmax0] at hb1
      have hminle : min demand (totalMaxEnergy units) ≤ demand := min_le_left _ _
      linarith
    · intro hlt
      exact absurd hrem (by linarith)
  · have h1 : (dispatch_once units demand).1
        = (sortedPriorities units).map (fun p => (groupOf units p).map toGU) := by
      simp only [dispatch_once]
      rw [if_neg hrem]
    refine ⟨?_, ?_, hshort, ?_⟩
    · intro grp hgrp u hu
      rw [h1] at hgrp
      obtain ⟨p, hpP, hpe⟩ := List.mem_map.mp hgrp
      rw [← hpe] at hu
      obtain ⟨v, hv, hve⟩ := List.mem_map.mp hu
      have hvb := hmm v (groupOf_mem units p v hv).1
      rw [← hve]
      exact ⟨le_refl _, hvb⟩
    · rw [h1, hmin]
      have hlen : 0 ≤ (0.1 : ℚ) * (sortedPriorities units).length := by positivity
      have hminle : min demand (totalMaxEnergy units) ≤ demand := min_le_left _ _
      linarith [not_lt.mp hrem]
    · intro _
      rw [h1]
      exact hminset

/-- C6 amended: in the power dispatch engine, every priority tier of every
`_dispatch_once` result is a water-fill: a single common increment `c ≥ 0`
above minimum describes all of its assets, each capped at its own maximum
(the equal-share loop does redistribute until the tier allocation is
exhausted or all assets cap).  The HRSG supplementary-firing dispatch does
not share this property (see the single-pass counterexample). -/
theorem c6_equal_fill (units : List AUnit) (demand : ℚ) :
    ∀ grp ∈ (dispatch_once units demand).1, equalFill grp := by
  intro grp hgrp
  by_cases hrem : demand - totalMinEnergy units > 0
  · have h1 : (dispatch_once units demand).1
        = (dispatchGroups (demand - totalMinEnergy units)
            ((sortedPriorities units).map (fun p => (groupOf units p).map toGU))).1 := by
      simp only [dispatch_once]
      rw [if_pos hrem]
    rw [h1] at hgrp
    obtain ⟨grp0, hg0, c, hc, heq⟩ :=
      dispatchGroups_wf _ _ (toGU_minset units) grp hgrp
    refine ⟨c, hc, ?_⟩
    intro u hu
    rw [heq] at hu
    obtain ⟨u0, hu0, hue⟩ := List.mem_map.mp hu
    rw [← hue]
    rfl
  · have h1 : (dispatch_once units demand).1
        = (sortedPriorities units).map (fun p => (groupOf units p).map toGU) := by
      simp only [dispatch_once]
      rw [if_neg hrem]
    rw [h1] at hgrp
    refine ⟨0, le_refl 0, ?_⟩
    intro u hu
    rw [waterfill_zero]
    exact toGU_minset units grp hgrp u hu

end PowerDispatch

namespace PowerDispatch

/-- C1 witness: the dispatch guarantees instantiated at two same-priority
assets (minima 2 and 1, maxima 5 and 4) and demand 7. -/
theorem c1_priority_dispatch_engine_witness :
    (∀ u ∈ ([⟨2, 5, 1⟩, ⟨1, 4, 1⟩] : List AUnit), u.minEnergy ≤ u.maxEnergy)
    ∧ (7 : ℚ) ≤ totalMaxEnergy [⟨2, 5, 1⟩, ⟨1, 4, 1⟩]
    ∧ ((∀ grp ∈ (dispatch_once [⟨2, 5, 1⟩, ⟨1, 4, 1⟩] 7).1,
          ∀ u ∈ grp, u.lo ≤ u.g ∧ u.g ≤ u.hi)
       ∧ min 7 (totalMaxEnergy [⟨2, 5, 1⟩, ⟨1, 4, 1⟩])
           - (0.1 : ℚ) * (sortedPriorities [⟨2, 5, 1⟩, ⟨1, 4, 1⟩]).length
           ≤ totalGross (dispatch_once [⟨2, 5, 1⟩, ⟨1, 4, 1⟩] 7).1
       ∧ (dispatch_once [⟨2, 5, 1⟩, ⟨1, 4, 1⟩] 7).2
           = max 0 (7 - totalGross (dispatch_once [⟨2, 5, 1⟩, ⟨1, 4, 1⟩] 7).1)
       ∧ ((7 : ℚ) < totalMinEnergy [⟨2, 5, 1⟩, ⟨1, 4, 1⟩] →
           ∀ grp ∈ (dispatch_once [⟨2, 5, 1⟩, ⟨1, 4, 1⟩] 7).1,
             ∀ u ∈ grp, u.g = u.lo)) := by
  have hmm : ∀ u ∈ ([⟨2, 5, 1⟩, ⟨1, 4, 1⟩] : List AUnit),
      u.minEnergy ≤ u.maxEnergy := by
    intro u hu
    simp only [List.mem_cons, List.mem_singleton] at hu
    rcases hu with rfl | rfl | h
    · norm_num
    · norm_num
    · simp at h
  have hd : (7 : ℚ) ≤ totalMaxEnergy [⟨2, 5, 1⟩, ⟨1, 4, 1⟩] := by
    norm_num [totalMaxEnergy]
  exact ⟨hmm, hd, c1_priority_dispatch_engine [⟨2, 5, 1⟩, ⟨1, 4, 1⟩] 7 hmm hd⟩

/-- C6 witness: the water-fill property instantiated at the priority-1 tier
of the Scenario A dispatch (Unit 1 at 12,800 MWh of its 15,840 maximum). -/
theorem c6_equal_fill_witness :
    [(⟨3600, 12800, 15840⟩ : GU)]
      ∈ (dispatch_once [⟨3600, 15840, 1⟩, ⟨3600, 15840, 2⟩, ⟨3600, 15840, 3⟩] 20000).1
    ∧ equalFill [⟨3600, 12800, 15840⟩] := by
  have hmem : [(⟨3600, 12800, 15840⟩ : GU)]
      ∈ (dispatch_once [⟨3600, 15840, 1⟩, ⟨3600, 15840, 2⟩, ⟨3600, 15840, 3⟩] 20000).1 := by
    norm_num [dispatch_once, sortedPriorities, sortAsc, insertAsc, groupOf, toGU,
      totalMinEnergy, dispatchGroups, dispatchGroup, countCan, groupAvailable,
      posHeadroom, addToCan, List.dedup, List.filter]
  exact ⟨hmem, c6_equal_fill _ _ _ hmem⟩

end PowerDispatch

namespace Lookup

theorem foldl_min_le (l : List ℚ) :
    ∀ a m : ℚ, m ∈ a :: l → l.foldl min a ≤ m := by
  induction l with
  | nil =>
    intro a m hm
    simp only [List.mem_singleton] at hm
    simp [hm]
  | cons y ys ih =>
    intro a m hm
    simp only [List.foldl_cons]
    rcases List.mem_cons.mp hm with rfl | hm'
    · exact le_trans (ih (min m y) (min m y) (by simp)) (min_le_left m y)
    rcases List.mem_cons.mp hm' with rfl | hm''
    · exact le_trans (ih (min a m) (min a m) (by simp)) (min_le_right a m)
    · exact ih (min a y) m (by simp [hm''])

theorem le_foldl_max (l : List ℚ) :
    ∀ a m : ℚ, m ∈ a :: l → m ≤ l.foldl max a := by
  induction l with
  | nil =>
    intro a m hm
    simp only [List.mem_singleton] at hm
    simp [hm]
  | cons y ys ih =>
    intro a m hm
    simp only [List.foldl_cons]
    rcases List.mem_cons.mp hm with rfl | hm'
    · exact le_trans (le_max_left m y) (ih (max m y) (max m y) (by simp))
    rcases List.mem_cons.mp hm' with rfl | hm''
    · exact le_trans (le_max_right a m) (ih (max a m) (max a m) (by simp))
    · exact ih (max a y) m (by simp [hm''])

theorem foldl_min_eq (l : List ℚ) :
    ∀ a m : ℚ, m ∈ a :: l → (∀ y ∈ a :: l, m ≤ y) → l.foldl min a = m := by
  induction l with
  | nil =>
    intro a m hm _
    simp only [List.mem_singleton] at hm
    simp [hm]
  | cons y ys ih =>
    intro a m hm hle
    simp only [List.foldl_cons]
    have hmay : m ∈ min a y :: ys := by
      rcases List.mem_cons.mp hm with rfl | hm'
      · simp [min_eq_left (hle y (by simp))]
      rcases List.mem_cons.mp hm' with rfl | hm''
      · simp [min_eq_right (hle a (by simp))]
      · simp [hm'']
    exact ih (min a y) m hmay (by
      intro z hz
      rcases List.mem_cons.mp hz with rfl | hz'
      · exact le_min (hle a (by simp)) (hle y (by simp))
      · exact hle z (by simp [hz']))

theorem foldl_max_eq (l : List ℚ) :
    ∀ a m : ℚ, m ∈ a :: l → (∀ y ∈ a :: l, y ≤ m) → l.foldl max a = m := by
  induction l with
  | nil =>
    intro a m hm _
    simp only [List.mem_singleton] at hm
    simp [hm]
  | cons y ys ih =>
    intro a m hm hle
    simp only [List.foldl_cons]
    have hmay : m ∈ max a y :: ys := by
      rcases List.mem_cons.mp hm with rfl | hm'
      · simp [max_eq_left (hle y (by simp))]
      rcases List.mem_cons.mp hm' with rfl | hm''
      · simp [max_eq_right (hle a (by simp))]
      · simp [hm'']
    exact ih (max a y) m hmay (by
      intro z hz
      rcases List.mem_cons.mp hz with rfl | hz'
      · exact max_le (hle a (by simp)) (hle y (by simp))
      · exact hle z (by simp [hz']))

theorem find?_eq_some_of_unique (p : ExtRow → Bool) :
    ∀ (l : List ExtRow) (a : ExtRow), a ∈ l → p a = true →
    (∀ b ∈ l, p b = true → b = a) → l.find? p = some a := by
  intro l
  induction l with
  | nil => intro a ha _ _; simp at ha
  | cons y ys ih =>
    intro a ha hpa huniq
    by_cases hy : p y = true
    · rw [List.find?_cons_of_pos _ hy, huniq y (by simp) hy]
    · rw [List.find?_cons_of_neg _ (by simpa using hy)]
      rcases List.mem_cons.mp ha with rfl | ha'
      · exact absurd hpa hy
      · exact ih a ha' hpa (fun b hb hpb => huniq b (by simp [hb]) hpb)

theorem loadMW_inj (c : List ExtRow) (hp : (c.map (·.LoadMW)).Pairwise (· < ·)) :
    ∀ a ∈ c, ∀ b ∈ c, a.LoadMW = b.LoadMW → a = b := by
  induction c with
  | nil => intro a ha; simp at ha
  | cons r rest ih =>
    simp only [List.map_cons, List.pairwise_cons] at hp
    intro a ha b hb heq
    rcases List.mem_cons.mp ha with rfl | ha'
    · rcases List.mem_cons.mp hb with rfl | hb'
      · rfl
      · exact absurd heq (ne_of_lt (hp.1 b.LoadMW (List.mem_map_of_mem _ hb')))
    · rcases List.mem_cons.mp hb with rfl | hb'
      · exact absurd heq.symm (ne_of_lt (hp.1 a.LoadMW (List.mem_map_of_mem _ ha')))
      · exact ih hp.2 a ha' b hb' heq

theorem exists_getLast?_mem (l : List ExtRow) (h : l ≠ []) :
    ∃ a, l.getLast? = some a ∧ a ∈ l := by
  induction l with
  | nil => exact absurd rfl h
  | cons y ys ih =>
    cases ys with
    | nil => exact ⟨y, rfl, by simp⟩
    | cons z zs =>
      obtain ⟨a, ha1, ha2⟩ := ih (by simp)
      exact ⟨a, by rw [List.getLast?_cons_cons]; exact ha1, by simp [ha2]⟩

theorem exists_head?_mem (l : List ExtRow) (h : l ≠ []) :
    ∃ a, l.head? = some a ∧ a ∈ l := by
  cases l with
  | nil => exact absurd rfl h
  | cons y ys => exact ⟨y, rfl, by simp⟩

theorem lerp_between (a b f : ℚ) (h0 : 0 < f) (h1 : f < 1) :
    Between a b (lerp a b f) := by
  unfold Between lerp
  refine ⟨?_, ?_, ?_⟩
  · intro h; rw [h]; ring
  · intro h; constructor <;> nlinarith
  · intro h; constructor <;> nlinarith

end Lookup


namespace Lookup

/-- C8 amended: for a non-empty extraction curve with strictly increasing
breakpoints, `get_stg_extraction_for_load` returns the all-zero default for
`x ≤ 0`; clamps to the minimum-load row with flag `"min"` only for
`0 < x < min`; clamps to the maximum-load row with flag `"max"` for
`x > max`; returns the stored row unchanged with `interpolated = false` and
no clamp flag on an exact breakpoint match (also at the boundaries); and for
an interior non-breakpoint query linearly interpolates between the bracketing
rows with a factor strictly between 0 and 1, so every interpolated column
lies between the bracketing stored values (equal for a flat segment). -/
theorem c8_lookup_clamp_interpolate (r₀ : ExtRow) (rs : List ExtRow) (x : ℚ)
    (hp : (((r₀ :: rs)).map (·.LoadMW)).Pairwise (· < ·)) :
    (x ≤ 0 → get_stg_extraction_for_load (r₀ :: rs) x = zeroExtOut)
    ∧ (0 < x → x < r₀.LoadMW →
        get_stg_extraction_for_load (r₀ :: rs) x
          = rowOut r₀ r₀.LoadMW false (some .cmin))
    ∧ (∀ rmax ∈ r₀ :: rs, (∀ r ∈ r₀ :: rs, r.LoadMW ≤ rmax.LoadMW) →
        0 < x → rmax.LoadMW < x →
        get_stg_extraction_for_load (r₀ :: rs) x
          = rowOut rmax rmax.LoadMW false (some .cmax))
    ∧ (∀ r ∈ r₀ :: rs, r.LoadMW = x → 0 < x →
        get_stg_extraction_for_load (r₀ :: rs) x = rowOut r x false none)
    ∧ (∀ rlow ∈ r₀ :: rs, ∀ rhigh ∈ r₀ :: rs,
        0 < x → rlow.LoadMW < x → x < rhigh.LoadMW →
        (∀ r ∈ r₀ :: rs, r.LoadMW ≠ x) →
        ∃ lower upper, ∃ f : ℚ,
          lower ∈ r₀ :: rs ∧ upper ∈ r₀ :: rs
          ∧ lower.LoadMW < x ∧ x < upper.LoadMW
          ∧ 0 < f ∧ f < 1
          ∧ get_stg_extraction_for_load (r₀ :: rs) x = lerpRows lower upper f x
          ∧ ∀ a b : ℚ, Between a b (lerp a b f)) := by
  simp only [List.map_cons] at hp
  have hhead : ∀ y ∈ rs.map (·.LoadMW), r₀.LoadMW < y := (List.pairwise_cons.mp hp).1
  have hpc : ((r₀ :: rs).map (·.LoadMW)).Pairwise (· < ·) := by
    simp only [List.map_cons]; exact hp
  have hMle : ∀ r ∈ r₀ :: rs,
      (rs.map (·.LoadMW)).foldl min r₀.LoadMW ≤ r.LoadMW := by
    intro r hr
    exact foldl_min_le _ _ _ (by simpa using List.mem_map_of_mem (·.LoadMW) hr)
  have hXge : ∀ r ∈ r₀ :: rs,
      r.LoadMW ≤ (rs.map (·.LoadMW)).foldl max r₀.LoadMW := by
    intro r hr
    exact le_foldl_max _ _ _ (by simpa using List.mem_map_of_mem (·.LoadMW) hr)
  have hM : (rs.map (·.LoadMW)).foldl min r₀.LoadMW = r₀.LoadMW := by
    apply foldl_min_eq
    · simp
    · intro y hy
      rcases List.mem_cons.mp hy with rfl | hy'
      · exact le_refl _
      · exact (hhead y hy').le
  refine ⟨?_, ?_, ?_, ?_, ?_⟩
  · intro hx
    simp only [get_stg_extraction_for_load]
    rw [if_pos hx]
  · intro hx0 hxlt
    simp only [get_stg_extraction_for_load]
    rw [if_neg (not_le.mpr hx0), hM, if_pos hxlt,
      List.find?_cons_of_pos _ (by simp)]
  · intro rmax hrmax hdom hx0 hxgt
    have hX : (rs.map (·.LoadMW)).foldl max r₀.LoadMW = rmax.LoadMW := by
      apply foldl_max_eq
      · simpa using List.mem_map_of_mem (·.LoadMW) hrmax
      · intro y hy
        rcases List.mem_cons.mp hy with rfl | hy'
        · exact hdom r₀ (by simp)
        · obtain ⟨r, hr, hre⟩ := List.mem_map.mp hy'
          exact hre ▸ hdom r (by simp [hr])
    have hminle := hMle rmax hrmax
    have hn0 : ¬ x ≤ 0 := not_le.mpr hx0
    have hnmin : ¬ x < (rs.map (·.LoadMW)).foldl min r₀.LoadMW := by
      push_neg
      linarith
    simp only [get_stg_extraction_for_load]
    rw [if_neg hn0, if_neg hnmin, hX, if_pos hxgt]
    rw [find?_eq_some_of_unique _ (r₀ :: rs) rmax hrmax (by simp)
      (fun b hb hpb => loadMW_inj (r₀ :: rs) hpc b hb rmax hrmax
        (of_decide_eq_true hpb))]
  · intro r hr hre hx0
    have hn0 : ¬ x ≤ 0 := not_le.mpr hx0
    have hnmin : ¬ x < (rs.map (·.LoadMW)).foldl min r₀.LoadMW := by
      push_neg
      linarith [hMle r hr, le_of_eq hre]
    have hnmax : ¬ x > (rs.map (·.LoadMW)).foldl max r₀.LoadMW := by
      push_neg
      linarith [hXge r hr, le_of_eq hre.symm]
    simp only [get_stg_extraction_for_load]
    rw [if_neg hn0, if_neg hnmin, if_neg hnmax]
    rw [find?_eq_some_of_unique _ (r₀ :: rs) r hr (by simp [hre])
      (fun b hb hpb => loadMW_inj (r₀ :: rs) hpc b hb r hr
        (by rw [of_decide_eq_true hpb, hre]))]
  · intro rlow hrlow rhigh hrhigh hx0 hlow hhigh hnx
    have hfind : (r₀ :: rs).find? (fun r => decide (r.LoadMW = x)) = none :=
      List.find?_eq_none.mpr (fun b hb => by simpa using hnx b hb)
    have hfl : (r₀ :: rs).filter (fun r => decide (r.LoadMW < x)) ≠ [] :=
      List.ne_nil_of_mem (List.mem_filter.mpr ⟨hrlow, by simpa using hlow⟩)
    obtain ⟨lower, hle, hlm⟩ :=
      exists_getLast?_mem ((r₀ :: rs).filter (fun r => decide (r.LoadMW < x))) hfl
    have hlmem : lower ∈ r₀ :: rs := (List.mem_filter.mp hlm).1
    have hllt : lower.LoadMW < x := by
      simpa using (List.mem_filter.mp hlm).2
    have hfh : (r₀ :: rs).filter (fun r => decide (x < r.LoadMW)) ≠ [] :=
      List.ne_nil_of_mem (List.mem_filter.mpr ⟨hrhigh, by simpa using hhigh⟩)
    obtain ⟨upper, hue, hum⟩ :=
      exists_head?_mem ((r₀ :: rs).filter (fun r => decide (x < r.LoadMW))) hfh
    have humem : upper ∈ r₀ :: rs := (List.mem_filter.mp hum).1
    have hult : x < upper.LoadMW := by
      simpa using (List.mem_filter.mp hum).2
    have hrange : upper.LoadMW - lower.LoadMW > 0 := by linarith
    refine ⟨lower, upper, (x - lower.LoadMW) / (upper.LoadMW - lower.LoadMW),
      hlmem, humem, hllt, hult, ?_, ?_, ?_, ?_⟩
    · exact div_pos (by linarith) hrange
    · rw [div_lt_one hrange]
      linarith
    · simp only [get_stg_extraction_for_load]
      rw [if_neg (not_le.mpr hx0),
        if_neg (by push_neg; linarith [hMle rlow hrlow]),
        if_neg (by push_neg; linarith [hXge rhigh hrhigh]),
        hfind, hle, hue]
      dsimp only
      rw [if_pos hrange]
    · intro a b
      exact lerp_between a b _ (div_pos (by linarith) hrange)
        (by rw [div_lt_one hrange]; linarith)

end Lookup

namespace Lookup

/-- C8 counterexample: on a one-row curve with breakpoint 10 and stored
values 7, the query `x = 0 ≤ min` returns the all-zero default (not the
first row's values, and with no clamp flag), and the boundary query
`x = 10 = min` returns the stored row with `clamped = none` rather than the
claimed `"min"` clamp flag. -/
theorem c8_counterexample :
    get_stg_extraction_for_load [⟨10, 7, 7, 7, 7, 7, 7, 7, 7, 7⟩] 0 = zeroExtOut
    ∧ zeroExtOut.heat_rate = 0
    ∧ (0 : ℚ) ≠ 7
    ∧ zeroExtOut.clamped = none
    ∧ (get_stg_extraction_for_load [⟨10, 7, 7, 7, 7, 7, 7, 7, 7, 7⟩] 10).clamped = none
    ∧ (none : Option Clamp) ≠ some .cmin := by
  refine ⟨?_, rfl, by norm_num, rfl, ?_, by decide⟩
  · norm_num [get_stg_extraction_for_load]
  · norm_num [get_stg_extraction_for_load, rowOut, zeroExtOut, List.find?]

/-- C8 witness: the lookup contract instantiated at a two-row curve with
breakpoints 10 and 20 and the interior query 15. -/
theorem c8_lookup_clamp_interpolate_witness :
    ((([(⟨10, 1, 2, 3, 4, 5, 6, 7, 8, 9⟩ : ExtRow),
        ⟨20, 11, 12, 13, 14, 15, 16, 17, 18, 19⟩] : List ExtRow)).map
        (·.LoadMW)).Pairwise (· < ·)
    ∧ (((15 : ℚ) ≤ 0 →
        get_stg_extraction_for_load
          [⟨10, 1, 2, 3, 4, 5, 6, 7, 8, 9⟩, ⟨20, 11, 12, 13, 14, 15, 16, 17, 18, 19⟩] 15
          = zeroExtOut)
      ∧ ((0 : ℚ) < 15 → (15 : ℚ) < (⟨10, 1, 2, 3, 4, 5, 6, 7, 8, 9⟩ : ExtRow).LoadMW →
          get_stg_extraction_for_load
            [⟨10, 1, 2, 3, 4, 5, 6, 7, 8, 9⟩, ⟨20, 11, 12, 13, 14, 15, 16, 17, 18, 19⟩] 15
            = rowOut ⟨10, 1, 2, 3, 4, 5, 6, 7, 8, 9⟩
                (⟨10, 1, 2, 3, 4, 5, 6, 7, 8, 9⟩ : ExtRow).LoadMW false (some .cmin))
      ∧ (∀ rmax ∈ [(⟨10, 1, 2, 3, 4, 5, 6, 7, 8, 9⟩ : ExtRow),
            ⟨20, 11, 12, 13, 14, 15, 16, 17, 18, 19⟩],
          (∀ r ∈ [(⟨10, 1, 2, 3, 4, 5, 6, 7, 8, 9⟩ : ExtRow),
              ⟨20, 11, 12, 13, 14, 15, 16, 17, 18, 19⟩], r.LoadMW ≤ rmax.LoadMW) →
          (0 : ℚ) < 15 → rmax.LoadMW < 15 →
          get_stg_extraction_for_load
            [⟨10, 1, 2, 3, 4, 5, 6, 7, 8, 9⟩, ⟨20, 11, 12, 13, 14, 15, 16, 17, 18, 19⟩] 15
            = rowOut rmax rmax.LoadMW false (some .cmax))
      ∧ (∀ r ∈ [(⟨10, 1, 2, 3, 4, 5, 6, 7, 8, 9⟩ : ExtRow),
            ⟨20, 11, 12, 13, 14, 15, 16, 17, 18, 19⟩], r.LoadMW = 15 → (0 : ℚ) < 15 →
          get_stg_extraction_for_load
            [⟨10, 1, 2, 3, 4, 5, 6, 7, 8, 9⟩, ⟨20, 11, 12, 13, 14, 15, 16, 17, 18, 19⟩] 15
            = rowOut r 15 false none)
      ∧ (∀ rlow ∈ [(⟨10, 1, 2, 3, 4, 5, 6, 7, 8, 9⟩ : ExtRow),
            ⟨20, 11, 12, 13, 14, 15, 16, 17, 18, 19⟩],
          ∀ rhigh ∈ [(⟨10, 1, 2, 3, 4, 5, 6, 7, 8, 9⟩ : ExtRow),
            ⟨20, 11, 12, 13, 14, 15, 16, 17, 18, 19⟩],
          (0 : ℚ) < 15 → rlow.LoadMW < 15 → (15 : ℚ) < rhigh.LoadMW →
          (∀ r ∈ [(⟨10, 1, 2, 3, 4, 5, 6, 7, 8, 9⟩ : ExtRow),
              ⟨20, 11, 12, 13, 14, 15, 16, 17, 18, 19⟩], r.LoadMW ≠ 15) →
          ∃ lower upper, ∃ f : ℚ,
            lower ∈ [(⟨10, 1, 2, 3, 4, 5, 6, 7, 8, 9⟩ : ExtRow),
              ⟨20, 11, 12, 13, 14, 15, 16, 17, 18, 19⟩]
            ∧ upper ∈ [(⟨10, 1, 2, 3, 4, 5, 6, 7, 8, 9⟩ : ExtRow),
              ⟨20, 11, 12, 13, 14, 15, 16, 17, 18, 19⟩]
            ∧ lower.LoadMW < 15 ∧ (15 : ℚ) < upper.LoadMW
            ∧ 0 < f ∧ f < 1
            ∧ get_stg_extraction_for_load
                [⟨10, 1, 2, 3, 4, 5, 6, 7, 8, 9⟩, ⟨20, 11, 12, 13, 14, 15, 16, 17, 18, 19⟩] 15
                = lerpRows lower upper f 15
            ∧ ∀ a b : ℚ, Between a b (lerp a b f))) := by
  have hp : ((([(⟨10, 1, 2, 3, 4, 5, 6, 7, 8, 9⟩ : ExtRow),
      ⟨20, 11, 12, 13, 14, 15, 16, 17, 18, 19⟩] : List ExtRow)).map
      (·.LoadMW)).Pairwise (· < ·) := by
    norm_num [List.pairwise_cons]
  exact ⟨hp, c8_lookup_clamp_interpolate ⟨10, 1, 2, 3, 4, 5, 6, 7, 8, 9⟩
    [⟨20, 11, 12, 13, 14, 15, 16, 17, 18, 19⟩] 15 hp⟩

end Lookup
